import Mathlib

/-!
# Verification of the genSTARK FRI core against its specification

This file shallowly embeds the FRI low-degree prover/verifier of the
genSTARK repository (`LowDegreeProver` in both its older TypeScript form and
its newer compiled form), the outer `Stark` verifier, and the security-option
validation, and proves properties of the embedded code.

Modelling conventions:
* Field elements are drawn from an arbitrary `Field F` with decidable
  equality; byte buffers (and hash digests) are modelled as `List F`, with
  the byte codec of the field backend elided (reading element `i` of a
  buffer stands for `readBigInt(buffer, i * elementSize, elementSize)`).
* External collaborators (hash, Merkle tree internals, the Fiat-Shamir
  query-index generator, the PRNG) are opaque oracle functions collected in
  an environment structure; prover and verifier share the same environment,
  which models the determinism guarantee of the spec.
* Polynomial interpolation and evaluation, which the field backend provides,
  are modelled from the spec as executable Lagrange interpolation and Horner
  evaluation on coefficient lists.
* JavaScript out-of-range reads (which yield `undefined`) are modelled by
  total reads with a default value; all claims are stated on in-range data.
-/

set_option linter.unusedSectionVars false
set_option linter.unreachableTactic false
set_option linter.unnecessarySeqFocus false
set_option linter.unusedTactic false

namespace GenStark

variable {F : Type} [Field F] [DecidableEq F]

/-- Read an element of a buffer / vector, with a zero default for the
out-of-range case. -/
def getE (xs : List F) (i : Nat) : F := xs.getD i 0

/-- Read a position list entry (JS array of numbers). -/
def getP (xs : List Nat) (i : Nat) : Nat := xs.getD i 0

/-- Read a row of a matrix (JS array of buffers). -/
def getRow (m : List (List F)) (i : Nat) : List F := m.getD i []

/-- Horner evaluation of a coefficient list (lowest degree first); models the
field backend's `evalPolyAt`. -/
def polyEval (p : List F) (x : F) : F := p.foldr (fun a acc => a + x * acc) 0

/-- Pointwise sum of two coefficient lists. -/
def polyAdd : List F → List F → List F
  | [], q => q
  | p, [] => p
  | a :: p, b :: q => (a + b) :: polyAdd p q

/-- Scale a coefficient list by a constant. -/
def polyScale (c : F) (p : List F) : List F := p.map (fun a => c * a)

/-- Multiply a coefficient list by the linear polynomial `a + X`. -/
def polyMulLin (a : F) (p : List F) : List F := polyAdd (polyScale a p) (0 :: p)

@[simp] theorem polyEval_nil (x : F) : polyEval [] x = 0 := rfl

@[simp] theorem polyEval_cons (a : F) (p : List F) (x : F) :
    polyEval (a :: p) x = a + x * polyEval p x := rfl

theorem polyEval_polyAdd (p q : List F) (x : F) :
    polyEval (polyAdd p q) x = polyEval p x + polyEval q x := by
  induction p generalizing q with
  | nil => simp [polyAdd]
  | cons a p ih =>
    cases q with
    | nil => simp [polyAdd]
    | cons b q => simp [polyAdd, ih]; ring

theorem polyEval_polyScale (c : F) (p : List F) (x : F) :
    polyEval (polyScale c p) x = c * polyEval p x := by
  induction p with
  | nil => simp [polyScale]
  | cons a p ih => simp [polyScale] at ih ⊢; rw [ih]; ring

theorem polyEval_polyMulLin (a : F) (p : List F) (x : F) :
    polyEval (polyMulLin a p) x = (a + x) * polyEval p x := by
  simp [polyMulLin, polyEval_polyAdd, polyEval_polyScale]
  ring

@[simp] theorem polyAdd_length (p q : List F) :
    (polyAdd p q).length = max p.length q.length := by
  induction p generalizing q with
  | nil => simp [polyAdd]
  | cons a p ih =>
    cases q with
    | nil => simp [polyAdd]
    | cons b q => simp [polyAdd, ih]; omega

@[simp] theorem polyScale_length (c : F) (p : List F) :
    (polyScale c p).length = p.length := by simp [polyScale]

@[simp] theorem polyMulLin_length (a : F) (p : List F) :
    (polyMulLin a p).length = p.length + 1 := by
  simp [polyMulLin]

/-- Indices of the interpolation nodes other than node `i`. -/
def otherIdx (n i : Nat) : List Nat := (List.range n).filter (fun j => j ≠ i)

/-- The monic product over all nodes `j ≠ i` of `(X - xs[j])`; the numerator of
the `i`-th Lagrange basis polynomial. -/
def nodalExcept (xs : List F) (i : Nat) : List F :=
  (otherIdx xs.length i).foldr (fun j acc => polyMulLin (-(getE xs j)) acc) [1]

/-- The denominator of the `i`-th Lagrange basis polynomial. -/
def lagDenom (xs : List F) (i : Nat) : F :=
  ((otherIdx xs.length i).map (fun j => getE xs i - getE xs j)).prod

/-- Modelled from the spec: the field backend's `interpolate (x-vector,
y-vector → poly)` (§6 of the spec; the backend itself is external to the
repository).  Executable Lagrange interpolation through the points
`(xs[i], ys[i])`, returning a coefficient list. -/
def interpolate (xs ys : List F) : List F :=
  (List.range xs.length).foldr
    (fun i acc => polyAdd (polyScale (getE ys i * (lagDenom xs i)⁻¹) (nodalExcept xs i)) acc) []

theorem polyEval_nodalExcept (xs : List F) (i : Nat) (x : F) :
    polyEval (nodalExcept xs i) x
      = ((otherIdx xs.length i).map (fun j => x - getE xs j)).prod := by
  unfold nodalExcept
  induction otherIdx xs.length i with
  | nil => simp [polyEval]
  | cons j js ih =>
    rw [List.foldr_cons, polyEval_polyMulLin, ih, List.map_cons, List.prod_cons]
    ring

theorem nodalExcept_length (xs : List F) (i : Nat) :
    (nodalExcept xs i).length = (otherIdx xs.length i).length + 1 := by
  unfold nodalExcept
  induction otherIdx xs.length i with
  | nil => rfl
  | cons j js ih => simp [ih]

theorem otherIdx_length (n i : Nat) (h : i < n) :
    (otherIdx n i).length + 1 = n := by
  unfold otherIdx
  induction n with
  | zero => omega
  | succ n ih =>
    rw [List.range_succ, List.filter_append, List.length_append]
    rcases Nat.lt_or_ge i n with h2 | h2
    · have hn : List.filter (fun j => decide (j ≠ i)) [n] = [n] := by
        rw [List.filter_cons, if_pos (by simpa using Nat.ne_of_gt h2)]
        rfl
      rw [hn]
      have h3 := ih h2
      simp only [List.length_cons, List.length_nil]
      omega
    · have hi : i = n := by omega
      subst hi
      have hn : List.filter (fun j => decide (j ≠ i)) [i] = [] := by
        rw [List.filter_cons, if_neg (by simp)]
        rfl
      have hall : List.filter (fun j => decide (j ≠ i)) (List.range i) = List.range i := by
        apply List.filter_eq_self.mpr
        intro a ha
        simp only [decide_eq_true_eq, ne_eq]
        have := List.mem_range.mp ha
        omega
      rw [hn, hall]
      simp

/-- Evaluating the nodal product at a distinct node yields zero. -/
theorem polyEval_nodalExcept_ne (xs : List F) (i k : Nat) (hk : k < xs.length)
    (hne : k ≠ i) :
    polyEval (nodalExcept xs i) (getE xs k) = 0 := by
  rw [polyEval_nodalExcept]
  apply List.prod_eq_zero
  have hmem : k ∈ otherIdx xs.length i := by
    unfold otherIdx
    simp [List.mem_filter, List.mem_range, hk, hne]
  exact List.mem_map.mpr ⟨k, hmem, by simp⟩

/-- Evaluating the nodal product at node `i` yields exactly the denominator. -/
theorem polyEval_nodalExcept_self (xs : List F) (i : Nat) :
    polyEval (nodalExcept xs i) (getE xs i) = lagDenom xs i := by
  rw [polyEval_nodalExcept]; rfl

/-- Pairwise distinctness of the node list. -/
def NodesDistinct (xs : List F) : Prop :=
  ∀ i j, i < xs.length → j < xs.length → i ≠ j → getE xs i ≠ getE xs j

theorem lagDenom_ne_zero (xs : List F) (i : Nat) (hi : i < xs.length)
    (hdist : NodesDistinct xs) : lagDenom xs i ≠ 0 := by
  unfold lagDenom
  intro h
  have h0 : (0 : F) ∈ (otherIdx xs.length i).map (fun j => getE xs i - getE xs j) :=
    List.prod_eq_zero_iff.mp h
  rcases List.mem_map.mp h0 with ⟨j, hj, hj0⟩
  unfold otherIdx at hj
  rw [List.mem_filter, List.mem_range] at hj
  have hji : j ≠ i := by simpa using hj.2
  exact hdist i j hi hj.1 (fun he => hji he.symm) (sub_eq_zero.mp hj0)

theorem polyEval_interpolate_sum (xs ys : List F) (x : F) :
    polyEval (interpolate xs ys) x
      = ((List.range xs.length).map
          (fun i => getE ys i * (lagDenom xs i)⁻¹ * polyEval (nodalExcept xs i) x)).sum := by
  unfold interpolate
  induction List.range xs.length with
  | nil => simp
  | cons i is ih => simp [polyEval_polyAdd, polyEval_polyScale, ih]

theorem sum_ite_range (n k : Nat) (c : F) (hk : k < n) :
    ((List.range n).map (fun i => if i = k then c else 0)).sum = c := by
  induction n with
  | zero => omega
  | succ n ih =>
    rw [List.range_succ, List.map_append, List.sum_append]
    rcases Nat.lt_or_ge k n with h | h
    · rw [ih h]
      simp [Nat.ne_of_gt h]
    · have hkn : k = n := by omega
      subst hkn
      have hz : ((List.range k).map (fun i => if i = k then c else 0)).sum = 0 := by
        apply List.sum_eq_zero
        intro a ha
        rcases List.mem_map.mp ha with ⟨i, hi, rfl⟩
        simp [Nat.ne_of_lt (List.mem_range.mp hi)]
      rw [hz]
      simp

/-- Lagrange interpolation passes through its nodes. -/
theorem interpolate_eval_node (xs ys : List F) (k : Nat) (hk : k < xs.length)
    (hdist : NodesDistinct xs) :
    polyEval (interpolate xs ys) (getE xs k) = getE ys k := by
  rw [polyEval_interpolate_sum]
  have hmap : (List.range xs.length).map
      (fun i => getE ys i * (lagDenom xs i)⁻¹ * polyEval (nodalExcept xs i) (getE xs k))
      = (List.range xs.length).map (fun i => if i = k then getE ys k else 0) := by
    apply List.map_congr_left
    intro i hi
    have hix : i < xs.length := List.mem_range.mp hi
    rcases eq_or_ne i k with rfl | hne
    · rw [polyEval_nodalExcept_self, if_pos rfl]
      have h0 := lagDenom_ne_zero xs i hix hdist
      field_simp
    · rw [polyEval_nodalExcept_ne xs i k hk (Ne.symm hne), if_neg hne, mul_zero]
  rw [hmap, sum_ite_range xs.length k (getE ys k) hk]

theorem interpolate_length (xs ys : List F) :
    (interpolate xs ys).length ≤ xs.length := by
  unfold interpolate
  have h : ∀ l : List Nat, (∀ i ∈ l, i < xs.length) →
      (l.foldr (fun i acc =>
        polyAdd (polyScale (getE ys i * (lagDenom xs i)⁻¹) (nodalExcept xs i)) acc) []).length
        ≤ xs.length := by
    intro l hl
    induction l with
    | nil => simp
    | cons i is ih =>
      simp only [List.foldr_cons, polyAdd_length, polyScale_length]
      have h1 : (nodalExcept xs i).length ≤ xs.length := by
        rw [nodalExcept_length]
        rw [otherIdx_length xs.length i (hl i (List.mem_cons_self i is))]
      have h2 := ih (fun j hj => hl j (List.mem_cons_of_mem i hj))
      omega
  exact h (List.range xs.length) (fun i hi => List.mem_range.mp hi)

/-- Interpret a coefficient list as a Mathlib polynomial (a proof-side bridge
for the uniqueness argument only; the embedded code itself works on lists). -/
noncomputable def toPoly (l : List F) : Polynomial F :=
  l.foldr (fun a acc => Polynomial.C a + Polynomial.X * acc) 0

theorem toPoly_nil : toPoly ([] : List F) = 0 := rfl

theorem toPoly_cons (a : F) (p : List F) :
    toPoly (a :: p) = Polynomial.C a + Polynomial.X * toPoly p := rfl

theorem toPoly_eval (l : List F) (x : F) : (toPoly l).eval x = polyEval l x := by
  induction l with
  | nil => simp [toPoly_nil]
  | cons a p ih => simp [toPoly_cons, ih]

theorem toPoly_degree_lt (l : List F) (n : Nat) (h : l.length ≤ n) :
    (toPoly l).degree < (n : WithBot Nat) := by
  induction l generalizing n with
  | nil =>
    simp only [toPoly, Polynomial.degree_zero]
    exact WithBot.bot_lt_coe n
  | cons a p ih =>
    rw [toPoly_cons]
    have hn : 1 ≤ n := le_trans (by simp) h
    obtain ⟨m, rfl⟩ : ∃ m, n = m + 1 := ⟨n - 1, by omega⟩
    have hp : p.length ≤ m := by
      simpa using Nat.lt_succ_iff.mp (Nat.lt_of_lt_of_le (Nat.lt_succ_self p.length)
        (by simpa using Nat.succ_le_succ (Nat.le_of_succ_le_succ (by simpa using h))))
    have h1 : (Polynomial.C a).degree < ((m + 1 : Nat) : WithBot Nat) :=
      lt_of_le_of_lt Polynomial.degree_C_le (by exact_mod_cast WithBot.coe_lt_coe.mpr (by omega))
    have h2 : (Polynomial.X * toPoly p).degree < ((m + 1 : Nat) : WithBot Nat) := by
      rw [Polynomial.degree_mul, Polynomial.degree_X]
      have := ih m hp
      rcases eq_or_ne (toPoly p).degree ⊥ with hb | hb
      · rw [hb]
        simpa using WithBot.bot_lt_coe (m + 1)
      · have hlt : (1 : WithBot Nat) + (toPoly p).degree < 1 + (m : WithBot Nat) :=
          WithBot.add_lt_add_left (by simp) this
        have hco : (1 : WithBot Nat) + (m : WithBot Nat) = ((m + 1 : Nat) : WithBot Nat) := by
          push_cast
          ring
        rwa [hco] at hlt
    calc (Polynomial.C a + Polynomial.X * toPoly p).degree
        ≤ max (Polynomial.C a).degree (Polynomial.X * toPoly p).degree :=
          Polynomial.degree_add_le _ _
      _ < ((m + 1 : Nat) : WithBot Nat) := max_lt h1 h2

theorem getE_eq_get (xs : List F) (i : Nat) (h : i < xs.length) :
    getE xs i = xs.get ⟨i, h⟩ := by
  unfold getE
  rw [List.getD_eq_getElem]
  · simp
  · exact h

theorem nodup_of_nodesDistinct (xs : List F) (h : NodesDistinct xs) : xs.Nodup := by
  rw [List.nodup_iff_injective_get]
  intro i j hij
  by_contra hne
  have hne2 : (i : Nat) ≠ (j : Nat) := fun he => hne (Fin.ext he)
  apply h i j i.isLt j.isLt hne2
  rw [getE_eq_get xs i i.isLt, getE_eq_get xs j j.isLt]
  simpa using hij

/-- The values of two coefficient lists of length at most `d` that agree on
`d` pairwise distinct nodes agree everywhere. -/
theorem polyEval_eq_of_eval_nodes (p q xs : List F)
    (hdist : NodesDistinct xs) (hp : p.length ≤ xs.length) (hq : q.length ≤ xs.length)
    (heval : ∀ k, k < xs.length → polyEval p (getE xs k) = polyEval q (getE xs k)) :
    ∀ y, polyEval p y = polyEval q y := by
  intro y
  have hPQ : toPoly p = toPoly q := by
    by_contra hne
    have hH : toPoly p - toPoly q ≠ 0 := sub_ne_zero.mpr hne
    have hdeg : (toPoly p - toPoly q).degree < (xs.length : WithBot Nat) :=
      lt_of_le_of_lt (Polynomial.degree_sub_le _ _)
        (max_lt (toPoly_degree_lt p xs.length hp) (toPoly_degree_lt q xs.length hq))
    have hnatdeg : (toPoly p - toPoly q).natDegree < xs.length :=
      (Polynomial.natDegree_lt_iff_degree_lt hH).mpr hdeg
    have hsub : xs.toFinset ⊆ (toPoly p - toPoly q).roots.toFinset := by
      intro x hx
      rw [List.mem_toFinset] at hx
      rcases List.mem_iff_get.mp hx with ⟨k, rfl⟩
      rw [Multiset.mem_toFinset, Polynomial.mem_roots hH]
      have := heval k k.isLt
      rw [getE_eq_get xs k k.isLt] at this
      simp only [Polynomial.IsRoot, Polynomial.eval_sub, toPoly_eval]
      rw [this]
      ring
    have hcard : xs.length ≤ (toPoly p - toPoly q).natDegree := by
      calc xs.length = xs.toFinset.card :=
            (List.toFinset_card_of_nodup (nodup_of_nodesDistinct xs hdist)).symm
        _ ≤ (toPoly p - toPoly q).roots.toFinset.card := Finset.card_le_card hsub
        _ ≤ Multiset.card (toPoly p - toPoly q).roots := Multiset.toFinset_card_le _
        _ ≤ (toPoly p - toPoly q).natDegree := Polynomial.card_roots' _
    omega
  rw [← toPoly_eval, ← toPoly_eval, hPQ]

/-- If the node values come from a polynomial of degree below the node count,
Lagrange interpolation through them reproduces that polynomial everywhere. -/
theorem interpolate_eval_eq_of_lowdegree (xs ys q : List F)
    (hdist : NodesDistinct xs) (hq : q.length ≤ xs.length)
    (hys : ∀ k, k < xs.length → getE ys k = polyEval q (getE xs k)) :
    ∀ y, polyEval (interpolate xs ys) y = polyEval q y := by
  apply polyEval_eq_of_eval_nodes (interpolate xs ys) q xs hdist (interpolate_length xs ys) hq
  intro k hk
  rw [interpolate_eval_node xs ys k hk hdist]
  exact hys k hk

/-! ## Vector / matrix operations of the field backend

Modelled from the spec (§6): `transposeVector`, `transposeMatrix`,
`joinMatrixRows`, `getPowerSeries`, `getPowerCycle`.  A matrix is a row list;
all matrices in the core have 4 columns. -/

/-- Modelled from the spec: `transposeVector(v, columnCount, step)` — element
`(i, j)` of the result is `v[(i + j * rowCount) * step]` with
`rowCount = v.length / step / columnCount`. -/
def transposeVector (v : List F) (columnCount step : Nat) : List (List F) :=
  let rowCount := v.length / step / columnCount
  (List.range rowCount).map (fun i =>
    (List.range columnCount).map (fun j => getE v ((i + j * rowCount) * step)))

/-- Modelled from the spec: `transposeMatrix` flips rows and columns. -/
def transposeMatrix (m : List (List F)) : List (List F) :=
  (List.range (getRow m 0).length).map (fun j => m.map (fun r => getE r j))

/-- Modelled from the spec: `joinMatrixRows` concatenates the rows. -/
def joinMatrixRows (m : List (List F)) : List F := m.flatten

/-- Modelled from the spec: `getPowerSeries(seed, count)` is the vector
`1, seed, seed^2, ...` of the given length. -/
def getPowerSeries (seed : F) (count : Nat) : List F :=
  (List.range count).map (fun i => seed ^ i)

@[simp] theorem transposeVector_length (v : List F) (c s : Nat) :
    (transposeVector v c s).length = v.length / s / c := by
  simp [transposeVector]

theorem transposeVector_row (v : List F) (c s i : Nat)
    (hi : i < v.length / s / c) :
    getRow (transposeVector v c s) i
      = (List.range c).map (fun j => getE v ((i + j * (v.length / s / c)) * s)) := by
  unfold transposeVector getRow
  rw [List.getD_eq_getElem _ _ (by simpa using hi)]
  simp

theorem transposeVector_row_length (v : List F) (c s : Nat) :
    ∀ r ∈ transposeVector v c s, r.length = c := by
  intro r hr
  unfold transposeVector at hr
  rcases List.mem_map.mp hr with ⟨i, _, rfl⟩
  simp

theorem getE_map_range (f : Nat → F) (n i : Nat) (hi : i < n) :
    getE ((List.range n).map f) i = f i := by
  unfold getE
  rw [List.getD_eq_getElem _ _ (by simpa using hi)]
  simp

theorem getRow_map_range (f : Nat → List F) (n i : Nat) (hi : i < n) :
    getRow ((List.range n).map f) i = f i := by
  unfold getRow
  rw [List.getD_eq_getElem _ _ (by simpa using hi)]
  simp

theorem getP_map_range (f : Nat → Nat) (n i : Nat) (hi : i < n) :
    getP ((List.range n).map f) i = f i := by
  unfold getP
  rw [List.getD_eq_getElem _ _ (by simpa using hi)]
  simp

/-- The remainder built by the prover base case (`joinMatrixRows` of the
transposed 4-column matrix) has exactly the element count of the matrix. -/
theorem joinMatrixRows_transposeMatrix_length (m : List (List F))
    (h4 : ∀ r ∈ m, r.length = 4) :
    (joinMatrixRows (transposeMatrix m)).length = 4 * m.length := by
  unfold joinMatrixRows transposeMatrix
  rcases m with _ | ⟨r0, rest⟩
  · simp
  · have hr0 : (getRow (r0 :: rest) 0).length = 4 := h4 r0 (List.mem_cons_self r0 rest)
    rw [hr0, List.length_flatten, List.map_map]
    have hconst : (List.range 4).map
        (List.length ∘ fun j => (r0 :: rest).map (fun r => getE r j))
        = (List.range 4).map (fun _ => (r0 :: rest).length) := by
      apply List.map_congr_left
      intro j _
      simp
    rw [hconst]
    have : ∀ n c : Nat, ((List.range n).map (fun _ => c)).sum = n * c := by
      intro n c
      induction n with
      | zero => simp
      | succ n ih =>
        rw [List.range_succ, List.map_append, List.sum_append, ih]
        simp
        ring
    rw [this]

/-! ## Deduplicated position lists (JS `Set` insertion order) -/

/-- Insert into a deduplicated list, keeping first-occurrence order; models
`Set.prototype.add` followed by `Array.from`. -/
def dedupInsert (acc : List Nat) (x : Nat) : List Nat :=
  if x ∈ acc then acc else acc ++ [x]

/-- Written from the spec's words: a list deduplicated in insertion order of
first occurrence. -/
def firstDedup (l : List Nat) : List Nat := l.foldl dedupInsert []

theorem mem_foldl_dedupInsert (l : List Nat) (acc : List Nat) (x : Nat) :
    x ∈ l.foldl dedupInsert acc ↔ x ∈ acc ∨ x ∈ l := by
  induction l generalizing acc with
  | nil => simp
  | cons a as ih =>
    rw [List.foldl_cons, ih]
    unfold dedupInsert
    by_cases ha : a ∈ acc
    · rw [if_pos ha]
      constructor
      · rintro (h | h)
        · exact Or.inl h
        · exact Or.inr (List.mem_cons_of_mem a h)
      · rintro (h | h)
        · exact Or.inl h
        · rcases List.mem_cons.mp h with rfl | h
          · exact Or.inl ha
          · exact Or.inr h
    · rw [if_neg ha]
      constructor
      · rintro (h | h)
        · rcases List.mem_append.mp h with h | h
          · exact Or.inl h
          · simp only [List.mem_singleton] at h
            exact Or.inr (by simp [h])
        · exact Or.inr (List.mem_cons_of_mem a h)
      · rintro (h | h)
        · exact Or.inl (List.mem_append.mpr (Or.inl h))
        · rcases List.mem_cons.mp h with rfl | h
          · exact Or.inl (List.mem_append.mpr (Or.inr (by simp)))
          · exact Or.inr h

theorem nodup_foldl_dedupInsert (l : List Nat) (acc : List Nat) (hacc : acc.Nodup) :
    (l.foldl dedupInsert acc).Nodup := by
  induction l generalizing acc with
  | nil => simpa
  | cons a as ih =>
    rw [List.foldl_cons]
    apply ih
    unfold dedupInsert
    by_cases ha : a ∈ acc
    · rwa [if_pos ha]
    · rw [if_neg ha]
      simpa [List.nodup_append] using ⟨hacc, ha⟩

theorem mem_firstDedup (l : List Nat) (x : Nat) : x ∈ firstDedup l ↔ x ∈ l := by
  unfold firstDedup
  rw [mem_foldl_dedupInsert]
  simp

theorem nodup_firstDedup (l : List Nat) : (firstDedup l).Nodup :=
  nodup_foldl_dedupInsert l [] List.nodup_nil

/-! ## Data model of the proofs (values as raw element rows) -/

/-- A batch Merkle proof; `values` are either raw 4-element rows or digests,
`nodes` are opaque interior digests. -/
structure BatchProofM (F : Type) where
  values : List (List F)
  nodes : List (List F)
  depth : Nat
deriving DecidableEq

/-- One FRI folding layer of the proof. -/
structure FriComponentM (F : Type) where
  columnRoot : List F
  columnProof : BatchProofM F
  polyProof : BatchProofM F
deriving DecidableEq

/-- The `LowDegreeProof` of the newer prover (src/unnamed/part_001). -/
structure LowDegreeProofM (F : Type) where
  lcRoot : List F
  lcProof : BatchProofM F
  components : List (FriComponentM F)
  remainder : List F
deriving DecidableEq

/-- The `LowDegreeProof` of the older prover (src/unnamed/part_000). -/
structure ProofOldM (F : Type) where
  components : List (FriComponentM F)
  remainder : List F
deriving DecidableEq

/-- Error kinds thrown by the embedded code (`StarkError`, `TypeError`,
`RangeError`); messages are abstracted into constructors. -/
inductive Err where
  | merkleLC
  | lcMismatch
  | merkleColumn (depth : Nat)
  | merklePoly (depth : Nat)
  | evalMismatch (depth : Nat)
  | degreeTooBig
  | remainderRoot
  | remainderDegree
  | rangeError
  | assertionsEmpty
  | merkleEval
  | transition
  | boundary
  | lcInconsistent
  | lowDegreeFailed
  | configError
deriving DecidableEq, Repr

/-- The environment of external collaborators of `LowDegreeProver`: the hash
backend, the Merkle tree backend, the PRNG, and the query-index generator.
Both prover and verifier run against the same environment, which models the
determinism of these collaborators. -/
structure Env (F : Type) where
  /-- `hash.digest` / per-row `hash.digestValues`. -/
  hashRow : List F → List F
  /-- `MerkleTree.create(leafHashes).root`. -/
  mroot : List (List F) → List F
  /-- interior nodes of `tree.proveBatch(positions)` (opaque). -/
  mnodes : List (List F) → List Nat → List (List F)
  /-- depth of a batch proof (opaque). -/
  mdepth : Nat
  /-- `MerkleTree.verifyBatch(root, positions, proof, hash)`. -/
  merkleVerify : List F → List Nat → BatchProofM F → Bool
  /-- `field.prng(seed)`. -/
  prng : List F → F
  /-- `idxGenerator.getFriIndexes(root, columnLength)`. -/
  friIdx : List F → Nat → List Nat
  /-- `idxGenerator.getExeIndexes(root, domainLength)`. -/
  exeIdx : List F → Nat → List Nat
  /-- `idxGenerator.extensionFactor` (0 models the JS falsy absent case). -/
  extensionFactor : Nat

/-- `getAugmentedPositions` of src/unnamed/part_001: positions reduced modulo
`columnLength / 4`, deduplicated in insertion order by a JS `Set`. -/
def getAugmentedPositions (positions : List Nat) (columnLength : Nat) : List Nat :=
  positions.foldl (fun acc p => dedupInsert acc (p % (columnLength / 4))) []

/-- `getAugmentedPositions` of src/unnamed/part_000 (takes the row length
directly). -/
def getAugmentedPositionsOld (positions : List Nat) (rowLength : Nat) : List Nat :=
  positions.foldl (fun acc p => dedupInsert acc (p % rowLength)) []

/-- `parsePolyValues`: each buffer holds 4 field elements. -/
def parsePolyValues (buffers : List (List F)) : List (List F) :=
  buffers.map (fun b => (List.range 4).map (fun i => getE b i))

/-- `parseColumnValues` of src/unnamed/part_001: for each query position, find
the buffer at the index of its augmented position and read the element at
offset `⌊position / rowLength⌋`. -/
def parseColumnValues (buffers : List (List F)) (positions augmentedPositions : List Nat)
    (columnLength : Nat) : List F :=
  let rowLength := columnLength / 4
  positions.map (fun position =>
    let idx := augmentedPositions.indexOf (position % rowLength)
    getE (getRow buffers idx) (position / rowLength))

/-- `parseColumnValues` of src/unnamed/part_000 (takes the row length
directly). -/
def parseColumnValuesOld (buffers : List (List F)) (positions augmentedPositions : List Nat)
    (rowLength : Nat) : List F :=
  positions.map (fun position =>
    let idx := augmentedPositions.indexOf (position % rowLength)
    getE (getRow buffers idx) (position / rowLength))

/-- Modelled from the spec: `rehashMerkleProofValues(proof, hash)` of
`lib/utils` (not under src/) returns the proof with each raw value row
replaced by its hash digest (§4.6 of the spec; verifier inputs are read-only
borrows, §3). -/
def rehashMerkleProofValues (env : Env F) (p : BatchProofM F) : BatchProofM F :=
  { p with values := p.values.map env.hashRow }

/-- Run a check over a list of indices, throwing the given error at the first
index where the check fails; models the JS `for`-loops whose bodies throw. -/
def ensureAll (e : Err) : List Nat → (Nat → Bool) → Except Err Unit
  | [], _ => .ok ()
  | i :: rest, f => if f i then ensureAll e rest f else .error e

theorem ensureAll_ok_iff (e : Err) (idxs : List Nat) (f : Nat → Bool) :
    ensureAll e idxs f = .ok () ↔ ∀ i ∈ idxs, f i = true := by
  induction idxs with
  | nil => simp [ensureAll]
  | cons i rest ih =>
    unfold ensureAll
    by_cases hi : f i
    · rw [if_pos hi, ih]
      simp [hi]
    · rw [if_neg hi]
      simp only [List.mem_cons]
      constructor
      · intro h
        cases h
      · intro h
        exact absurd (h i (Or.inl rfl)) hi

/-- `interpolateQuarticBatch` (modelled from the spec, §6): row-wise
interpolation of 4-point rows. -/
def interpolateQuarticBatch (xs ys : List (List F)) : List (List F) :=
  List.zipWith interpolate xs ys

/-- `evalQuarticBatch` (modelled from the spec, §6): evaluate each row
polynomial at the given coordinate. -/
def evalQuarticBatch (polys : List (List F)) (x : F) : List F :=
  polys.map (fun p => polyEval p x)

/-- `LowDegreeProver.verifyRemainder` (identical in src/unnamed/part_000 lines
179-208 and src/unnamed/part_001 lines 240-267): exclude the positions hit by
the extension-factor stride, interpolate the first `maxDegreePlus1` remaining
points, and check the polynomial against every later remaining point. -/
def verifyRemainder (env : Env F) (remainder : List F) (maxDegreePlus1 : Nat)
    (rootOfUnity : F) : Except Err Unit :=
  let positions := (List.range remainder.length).filter
    (fun i => env.extensionFactor == 0 || i % env.extensionFactor != 0)
  let domain := getPowerSeries rootOfUnity remainder.length
  let xs := (List.range maxDegreePlus1).map (fun i => getE domain (getP positions i))
  let ys := (List.range maxDegreePlus1).map (fun i => getE remainder (getP positions i))
  let poly := interpolate xs ys
  ensureAll .remainderDegree ((List.range positions.length).drop maxDegreePlus1)
    (fun i => decide (polyEval poly (getE domain (getP positions i))
      = getE remainder (getP positions i)))

/-- The position filter of `verifyRemainder`, named for the statements. -/
def remainderPositions (extensionFactor R : Nat) : List Nat :=
  (List.range R).filter (fun i => extensionFactor == 0 || i % extensionFactor != 0)

theorem verifyRemainder_positions (env : Env F) (remainder : List F) :
    (List.range remainder.length).filter
      (fun i => env.extensionFactor == 0 || i % env.extensionFactor != 0)
      = remainderPositions env.extensionFactor remainder.length := rfl

/-! ## The FRI prover (`LowDegreeProver.prove` / `fri`) -/

/-- The degree-bound update applied at each folding step:
`Math.floor(maxDegreePlus1 / 4)` (src/unnamed/part_001 lines 184 and 228;
src/unnamed/part_000 lines 106 and 162). -/
def nextDegreeBound (maxDegreePlus1 : Nat) : Nat := maxDegreePlus1 / 4

/-- `LowDegreeProver.fri` (src/unnamed/part_001 lines 204-239), with an
explicit fuel parameter for the recursion; `none` means the fuel ran out (a
case the termination theorem rules out for sufficient fuel).  The Merkle tree
argument is represented by its leaf-hash list (`pLeaves`); its root is
`env.mroot pLeaves`.  Returns the component list (index = depth) and the
remainder. -/
def friFuel (env : Env F) :
    Nat → List (List F) → List (List F) → Nat → Nat → List F →
    Option (Except Err (List (FriComponentM F) × List F))
  | 0, _, _, _, _, _ => none
  | fuel + 1, pLeaves, polyValues, maxDegreePlus1, depth, domain =>
    if polyValues.length * 4 ≤ 256 then
      -- MAX_REMAINDER_LENGTH = 256; rowCount * colCount = 4 * rows
      let rootOfUnity := (getE domain 1) ^ (4 ^ depth)
      let remainder := joinMatrixRows (transposeMatrix polyValues)
      match verifyRemainder env remainder maxDegreePlus1 rootOfUnity with
      | .error e => some (.error e)
      | .ok _ => some (.ok ([], remainder))
    else
      let xs := transposeVector domain 4 (4 ^ depth)
      let polys := interpolateQuarticBatch xs polyValues
      let specialX := env.prng (env.mroot pLeaves)
      let column := evalQuarticBatch polys specialX
      let newPolyValues := transposeVector column 4 1
      let rowHashes := newPolyValues.map env.hashRow
      match friFuel env fuel rowHashes newPolyValues (nextDegreeBound maxDegreePlus1)
          (depth + 1) domain with
      | none => none
      | some (.error e) => some (.error e)
      | some (.ok (comps, rem)) =>
        let positions := env.friIdx (env.mroot rowHashes) column.length
        let augmentedPositions := getAugmentedPositions positions column.length
        let columnProof : BatchProofM F :=
          { values := augmentedPositions.map (fun i => getRow newPolyValues i)
            nodes := env.mnodes rowHashes augmentedPositions
            depth := env.mdepth }
        let polyProof : BatchProofM F :=
          { values := positions.map (fun i => getRow polyValues i)
            nodes := env.mnodes pLeaves positions
            depth := env.mdepth }
        some (.ok (⟨env.mroot rowHashes, columnProof, polyProof⟩ :: comps, rem))

/-- Integer floor of `log2` (structural fuel recursion so that concrete
values evaluate); `floorLog2 n` is the exponent of the highest power of two
at most `n` for `n ≥ 1`. -/
def floorLog2Aux : Nat → Nat → Nat
  | 0, _ => 0
  | fuel + 1, n => if n ≤ 1 then 0 else floorLog2Aux fuel (n / 2) + 1

def floorLog2 (n : Nat) : Nat := floorLog2Aux n n

/-- `Math.ceil(Math.log2 x)` for an integer `x ≥ 2`. -/
def jsCeilLog2 (x : Nat) : Nat := floorLog2 (x - 1) + 1

/-- `getComponentCount` (src/unnamed/part_001 lines 299-303):
`Math.min(Math.ceil(Math.log2(valueCount) / 2) - REMAINDER_SLOTS, 0)` with
`REMAINDER_SLOTS = log2(256) / 2 = 4`.  `⌈log2 v / 2⌉ = ⌈⌈log2 v⌉ / 2⌉` holds
for all reals, so the float expression equals `(jsCeilLog2 v + 1) / 2` in
natural division.  The result is an `Int` because the subtraction goes
negative for small inputs. -/
def getComponentCount (valueCount : Nat) : Int :=
  min (((jsCeilLog2 valueCount + 1) / 2 : Nat) - (4 : Int)) 0

/-- `LowDegreeProver.prove` (src/unnamed/part_001 lines 92-116).  The Merkle
batch proof over the linear-combination tree is built, then the component
array is allocated with `new Array(componentCount)` — which throws a
`RangeError` when `componentCount` is negative — and `fri` fills it.  `none`
propagates fuel exhaustion of `fri`. -/
def proveNew (env : Env F) (cEvaluations : List F) (domain : List F)
    (maxDegreePlus1 : Nat) : Option (Except Err (LowDegreeProofM F)) :=
  let polyValues := transposeVector cEvaluations 4 1
  let polyHashes := polyValues.map env.hashRow
  let pRoot := env.mroot polyHashes
  let exeQueryPositions := env.exeIdx pRoot domain.length
  let lcPositions := getAugmentedPositions exeQueryPositions cEvaluations.length
  let lcProof : BatchProofM F :=
    { values := lcPositions.map (fun i => getRow polyValues i)
      nodes := env.mnodes polyHashes lcPositions
      depth := env.mdepth }
  let componentCount := getComponentCount cEvaluations.length
  if componentCount < 0 then some (.error .rangeError)
  else
    match friFuel env (polyValues.length + 1) polyHashes polyValues maxDegreePlus1 0 domain with
    | none => none
    | some (.error e) => some (.error e)
    | some (.ok (comps, rem)) =>
      some (.ok { lcRoot := pRoot, lcProof := lcProof, components := comps, remainder := rem })

/-! ## The FRI verifier, newer form (`LowDegreeProver.verify`,
src/unnamed/part_001 lines 117-201) -/

/-- `getRootOfUnityDegree` (src/unnamed/part_001 lines 304-311; called
`computeRootOfUnityDegree` in src/unnamed/part_000 lines 213-220): squares
until reaching one, doubling the result.  Fueled because the JS `while` loop
diverges when the order of the input is not a power of two; `none` models
non-termination within the fuel. -/
def getRootOfUnityDegreeF : Nat → F → Option Nat
  | 0, _ => none
  | fuel + 1, x =>
    if x = 1 then some 1
    else (getRootOfUnityDegreeF fuel (x * x)).map (fun d => 2 * d)

/-- The per-layer interpolation check of the verifier (src/unnamed/part_001
lines 158-180): build the 4 x-coordinates `quarticRootsOfUnity[j] * ω^p` for
each queried position, interpolate against the revealed 4-element rows,
evaluate at `specialX`, and compare with the revealed column values. -/
def friEvalCheck (quarticRootsOfUnity : List F) (rootOfUnity specialX : F)
    (positions : List Nat) (polyValues : List (List F)) (columnValues : List F)
    (depth : Nat) : Except Err Unit :=
  let xs := positions.map (fun p =>
    let xe := rootOfUnity ^ p
    [getE quarticRootsOfUnity 0 * xe, getE quarticRootsOfUnity 1 * xe,
     getE quarticRootsOfUnity 2 * xe, getE quarticRootsOfUnity 3 * xe])
  let polys := interpolateQuarticBatch xs polyValues
  let pEvaluations := evalQuarticBatch polys specialX
  ensureAll (.evalMismatch depth) (List.range polys.length)
    (fun i => decide (getE pEvaluations i = getE columnValues i))

/-- One iteration of the verifier's component loop (src/unnamed/part_001
lines 141-180): parse and Merkle-check the column and polynomial proofs, then
run the interpolation check with `specialX = PRNG(pRoot)`. -/
def friLayerCheck (env : Env F) (quarticRootsOfUnity : List F) (pRoot : List F)
    (rootOfUnity : F) (columnLength depth : Nat) (comp : FriComponentM F) :
    Except Err Unit :=
  let positions := env.friIdx comp.columnRoot columnLength
  let augmentedPositions := getAugmentedPositions positions columnLength
  let columnValues := parseColumnValues comp.columnProof.values positions
    augmentedPositions columnLength
  let columnProofH := rehashMerkleProofValues env comp.columnProof
  if env.merkleVerify comp.columnRoot augmentedPositions columnProofH then
    let polyValues := parsePolyValues comp.polyProof.values
    let polyProofH := rehashMerkleProofValues env comp.polyProof
    if env.merkleVerify pRoot positions polyProofH then
      friEvalCheck quarticRootsOfUnity rootOfUnity (env.prng pRoot) positions
        polyValues columnValues depth
    else .error (.merklePoly depth)
  else .error (.merkleColumn depth)

/-- The verifier's component loop with its state updates
(src/unnamed/part_001 lines 181-186): `pRoot := columnRoot`,
`rootOfUnity := rootOfUnity^4`, `maxDegreePlus1 := ⌊maxDegreePlus1/4⌋`,
`columnLength := ⌊columnLength/4⌋`. -/
def verifyNewLoop (env : Env F) (quarticRootsOfUnity : List F) :
    List (FriComponentM F) → List F → F → Nat → Nat → Nat →
    Except Err (List F × F × Nat)
  | [], pRoot, rootOfUnity, maxDeg1, _, _ => .ok (pRoot, rootOfUnity, maxDeg1)
  | comp :: rest, pRoot, rootOfUnity, maxDeg1, columnLength, depth =>
    match friLayerCheck env quarticRootsOfUnity pRoot rootOfUnity columnLength depth comp with
    | .error e => .error e
    | .ok _ => verifyNewLoop env quarticRootsOfUnity rest comp.columnRoot
        (rootOfUnity ^ 4) (nextDegreeBound maxDeg1) (columnLength / 4) (depth + 1)

/-- All checks of `LowDegreeProver.verify` (src/unnamed/part_001): the
linear-combination stage, the component loop, and the remainder stage. -/
def verifyNewChecks (env : Env F) (rootOfUnity : F) (columnLength : Nat)
    (proof : LowDegreeProofM F) (lcValues : List F) (exeQueryPositions : List Nat)
    (maxDegreePlus1 : Nat) : Except Err Unit :=
  let quarticRootsOfUnity := [1, rootOfUnity ^ (columnLength / 4),
    rootOfUnity ^ (columnLength / 2), rootOfUnity ^ (columnLength * 3 / 4)]
  let lcPositions := getAugmentedPositions exeQueryPositions columnLength
  let lcChecks := parseColumnValues proof.lcProof.values exeQueryPositions
    lcPositions columnLength
  let lcProofH := rehashMerkleProofValues env proof.lcProof
  if env.merkleVerify proof.lcRoot lcPositions lcProofH then
    match ensureAll .lcMismatch (List.range lcValues.length)
        (fun i => decide (getE lcValues i = getE lcChecks i)) with
    | .error e => .error e
    | .ok _ =>
      match verifyNewLoop env quarticRootsOfUnity proof.components proof.lcRoot
          rootOfUnity maxDegreePlus1 (columnLength / 4) 0 with
      | .error e => .error e
      | .ok (pRoot, rou, maxDeg1) =>
        if maxDeg1 > proof.remainder.length then .error .degreeTooBig
        else
          let polyValues := transposeVector proof.remainder 4 1
          let polyHashes := polyValues.map env.hashRow
          if env.mroot polyHashes = pRoot then
            verifyRemainder env proof.remainder maxDeg1 rou
          else .error .remainderRoot
  else .error .merkleLC

/-- `LowDegreeProver.verify` (src/unnamed/part_001 lines 117-201): runs all
checks and then `return true`; all failure paths throw.  `none` models
divergence of the root-of-unity-degree loop. -/
def verifyNew (env : Env F) (rootOfUnity : F) (rouFuel : Nat)
    (proof : LowDegreeProofM F) (lcValues : List F) (exeQueryPositions : List Nat)
    (maxDegreePlus1 : Nat) : Option (Except Err Bool) :=
  match getRootOfUnityDegreeF rouFuel rootOfUnity with
  | none => none
  | some columnLength =>
    some ((verifyNewChecks env rootOfUnity columnLength proof lcValues
      exeQueryPositions maxDegreePlus1).map (fun _ => true))

/-! ## The FRI verifier, older form (`LowDegreeProver.verify`,
src/unnamed/part_000 lines 44-128), which mutates the proof object -/

/-- The component loop of the older verifier (src/unnamed/part_000 lines
55-108).  The loop assigns `columnProof.values = hashBuffers(...)` and
`polyProof.values = hashBuffers(...)` on the proof object it received (the
source comment reads `TODO: don't mutate the proof`); the returned component
list is the post-call state of `proof.components`. -/
def verifyOldLoop (env : Env F) (quarticRootsOfUnity : List F) :
    List (FriComponentM F) → List F → F → Nat → Nat → Nat →
    Except Err (List F × F × Nat) × List (FriComponentM F)
  | [], lRoot, rootOfUnity, _, maxDeg1, _ => (.ok (lRoot, rootOfUnity, maxDeg1), [])
  | comp :: rest, lRoot, rootOfUnity, rouDegree, maxDeg1, depth =>
    let columnLength := rouDegree / 4
    let positions := env.friIdx comp.columnRoot columnLength
    let augmentedPositions := getAugmentedPositionsOld positions (columnLength / 4)
    let columnValues := parseColumnValuesOld comp.columnProof.values positions
      augmentedPositions (columnLength / 4)
    let comp1 : FriComponentM F :=
      { comp with columnProof :=
        { comp.columnProof with values := comp.columnProof.values.map env.hashRow } }
    if env.merkleVerify comp.columnRoot augmentedPositions comp1.columnProof then
      let ys := parsePolyValues comp1.polyProof.values
      let comp2 : FriComponentM F :=
        { comp1 with polyProof :=
          { comp1.polyProof with values := comp1.polyProof.values.map env.hashRow } }
      if env.merkleVerify lRoot positions comp2.polyProof then
        let xs := positions.map (fun p =>
          let xe := rootOfUnity ^ p
          [getE quarticRootsOfUnity 0 * xe, getE quarticRootsOfUnity 1 * xe,
           getE quarticRootsOfUnity 2 * xe, getE quarticRootsOfUnity 3 * xe])
        let specialX := env.prng lRoot
        let polys := interpolateQuarticBatch xs ys
        match ensureAll (.evalMismatch depth) (List.range polys.length)
            (fun i => decide (polyEval (getRow polys i) specialX = getE columnValues i)) with
        | .error e => (.error e, comp2 :: rest)
        | .ok _ =>
          let r := verifyOldLoop env quarticRootsOfUnity rest comp.columnRoot
            (rootOfUnity ^ 4) (rouDegree / 4) (nextDegreeBound maxDeg1) (depth + 1)
          (r.1, comp2 :: r.2)
      else (.error (.merklePoly depth), comp2 :: rest)
    else (.error (.merkleColumn depth), comp1 :: rest)

/-- All checks of the older `LowDegreeProver.verify`, paired with the
post-call component list. -/
def verifyOldChecks (env : Env F) (rouDegree : Nat) (lRoot : List F)
    (maxDegreePlus1 : Nat) (rootOfUnity : F) (proof : ProofOldM F) :
    Except Err Unit × List (FriComponentM F) :=
  let quarticRootsOfUnity := [1, rootOfUnity ^ (rouDegree / 4),
    rootOfUnity ^ (rouDegree / 2), rootOfUnity ^ (rouDegree * 3 / 4)]
  let r := verifyOldLoop env quarticRootsOfUnity proof.components lRoot rootOfUnity
    rouDegree maxDegreePlus1 0
  match r.1 with
  | .error e => (.error e, r.2)
  | .ok (lRoot2, rou2, maxDeg12) =>
    if maxDeg12 > proof.remainder.length then (.error .degreeTooBig, r.2)
    else
      let rMatrix := transposeVector proof.remainder 4 1
      let rHashes := rMatrix.map env.hashRow
      if env.mroot rHashes = lRoot2 then
        (verifyRemainder env proof.remainder maxDeg12 rou2, r.2)
      else (.error .remainderRoot, r.2)

/-- The older `LowDegreeProver.verify` (src/unnamed/part_000 lines 44-128):
returns its verdict together with the post-call state of the proof object it
received (which it mutates).  `none` models divergence of the
root-of-unity-degree loop. -/
def verifyOld (env : Env F) (rouFuel : Nat) (lRoot : List F) (maxDegreePlus1 : Nat)
    (rootOfUnity : F) (proof : ProofOldM F) :
    Option (Except Err Bool × ProofOldM F) :=
  match getRootOfUnityDegreeF rouFuel rootOfUnity with
  | none => none
  | some rouDegree =>
    let r := verifyOldChecks env rouDegree lRoot maxDegreePlus1 rootOfUnity proof
    some (r.1.map (fun _ => true), { proof with components := r.2 })

/-! ## The outer STARK verifier (`Stark.verify`,
src/lib/components/TraceBuilder.ts lines 310-472) -/

/-- Oracles and configuration of the outer `Stark` class beyond the FRI
environment: the AIR-derived evaluators, the serializer, and the security
parameters.  All are external collaborators or constructor-time data. -/
structure StarkEnv (F : Type) extends Env F where
  /-- `config.steps` (steps of one iteration round). -/
  configSteps : Nat
  /-- `config.maxConstraintDegree`. -/
  maxConstraintDegree : Nat
  /-- `config.constraintCount`. -/
  constraintCount : Nat
  /-- `config.mutableRegisterCount`. -/
  registerCount : Nat
  /-- `context.constantCount` (readonly registers). -/
  constantCount : Nat
  /-- `bPoly.count` (registers with boundary constraints). -/
  bpc : Nat
  /-- `this.exeSpotCheckCount`. -/
  exeSpotCheckCount : Nat
  /-- `field.getRootOfUnity(order)`. -/
  getRootOfUnity : Nat → F
  /-- `getPseudorandomIndexes(root, count, domainSize, excludeStride)`. -/
  pseudorandomIdx : List F → Nat → Nat → Nat → List Nat
  /-- `serializer.parseEvaluations(buffer, bpc)` split into `[p, b, d]`. -/
  parseEvals : List F → List F × List F × List F
  /-- `hash(buffer)` on merged evaluation buffers. -/
  digest : List F → List F
  /-- `zPoly.evaluateAt(x)`. -/
  zEvalAt : F → F
  /-- `kRegisters[j].getValueAt(x)`. -/
  kValueAt : Nat → F → F
  /-- `bPoly.evaluateAt(pValues, x)`. -/
  bEvalAt : List F → F → List F
  /-- `constraintEvaluator.evaluateOne(pValues, npValues, kValues)`. -/
  evaluateOne : List F → List F → List F → List F
  /-- `field.combine(values, coefficients)`. -/
  combine : List F → List F → F
  /-- `field.prng(seed, count)`. -/
  prngMany : List F → Nat → List F
  /-- the raw JS bigint `*` used on decoded values (not `field.mul`). -/
  rawMul : F → F → F
  /-- `MerkleTree.verifyBatch` at the two `try`/`catch` sites of
  `Stark.verify`; `.error` models an exception thrown by the Merkle backend
  itself. -/
  merkleVerifyE : List F → List Nat → BatchProofM F → Except Unit Bool

/-- An assertion `{ step, register, value }`. -/
structure AssertionM (F : Type) where
  step : Nat
  register : Nat
  value : F
deriving DecidableEq

/-- A `StarkProof` (evaluations section and degree section). -/
structure StarkProofM (F : Type) where
  evRoot : List F
  evValues : List (List F)
  evNodes : List (List F)
  evDepth : Nat
  degRoot : List F
  lcProof : BatchProofM F
  ldProof : ProofOldM F
deriving DecidableEq

/-- `Stark.getAugmentedPositions` (src/lib/components/TraceBuilder.ts lines
520-528): for each position insert `p` and `(p + skip) % evaluationDomainSize`
into a JS `Set`. -/
def starkGetAugmentedPositions (positions : List Nat) (evaluationDomainSize skip : Nat) :
    List Nat :=
  positions.foldl
    (fun acc p => dedupInsert (dedupInsert acc p) ((p + skip) % evaluationDomainSize)) []

/-- `Map.prototype.set`: later insertions override earlier ones, modelled by
prepending (lookups scan from the head). -/
def mapSet (m : List (Nat × List F)) (k : Nat) (v : List F) : List (Nat × List F) :=
  (k, v) :: m

/-- `Map.prototype.get` (`undefined` is `none`). -/
def mapGet (m : List (Nat × List F)) (k : Nat) : Option (List F) :=
  (m.find? (fun e => e.1 == k)).map (fun e => e.2)

/-- The map-building loop of `Stark.verify` step 3 / step 5: entry `i` of the
values list is stored under key `augmentedPositions[i]`. -/
def starkBuildEvalMap (augmentedPositions : List Nat) (values : List (List F)) :
    List (Nat × List F) :=
  (List.range values.length).foldl
    (fun m i => mapSet m (getP augmentedPositions i) (getRow values i)) []

/-- The body of the step-7 loop of `Stark.verify` for one query position:
transition-constraint check, boundary-constraint check, and the
linear-combination consistency check. -/
def starkCheckPos (env : StarkEnv F) (G2 : F)
    (steps evaluationDomainSize lCombinationDegree : Nat)
    (pMap bMap dMap lMap : List (Nat × List F)) (lCoefficients : List F)
    (step : Nat) : Except Err Unit :=
  let x := G2 ^ step
  let pValues := (mapGet pMap step).getD []
  let bValues := (mapGet bMap step).getD []
  let dValues := (mapGet dMap step).getD []
  let zValue := env.zEvalAt x
  let kValues := (List.range env.constantCount).map (fun j => env.kValueAt j x)
  let npValues := (mapGet pMap ((step + env.extensionFactor) % evaluationDomainSize)).getD []
  let qValues := env.evaluateOne pValues npValues kValues
  match ensureAll .transition (List.range env.constraintCount)
      (fun j => decide (getE qValues j = zValue * getE dValues j)) with
  | .error e => .error e
  | .ok _ =>
    let bChecks := env.bEvalAt pValues x
    match ensureAll .boundary (List.range bChecks.length)
        (fun j => decide (getE bChecks j = getE bValues j)) with
    | .error e => .error e
    | .ok _ =>
      let lcValues :=
        if lCombinationDegree > steps then
          let power := x ^ (lCombinationDegree - steps)
          let pbValues := pValues ++ bValues
          let pbValues2 := pbValues.map (fun v => env.rawMul v power)
          pbValues2 ++ pbValues ++ dValues
        else
          let power := x ^ (steps - 1)
          let dValues2 := dValues.map (fun v => env.rawMul v power)
          pValues ++ bValues ++ dValues2
      let lCheck := env.combine lcValues lCoefficients
      match mapGet lMap step with
      | some v => if getE v 0 = lCheck then .ok () else .error .lcInconsistent
      | none => .error .lcInconsistent

/-- The step-7 loop over all query positions. -/
def starkCheckAllPos (env : StarkEnv F) (G2 : F)
    (steps evaluationDomainSize lCombinationDegree : Nat)
    (pMap bMap dMap lMap : List (Nat × List F)) (lCoefficients : List F) :
    List Nat → Except Err Unit
  | [] => .ok ()
  | p :: rest =>
    match starkCheckPos env G2 steps evaluationDomainSize lCombinationDegree
        pMap bMap dMap lMap lCoefficients p with
    | .error e => .error e
    | .ok _ => starkCheckAllPos env G2 steps evaluationDomainSize lCombinationDegree
        pMap bMap dMap lMap lCoefficients rest

/-- All checks of `Stark.verify` after the context is set up.  The two Merkle
batch checks of steps 4 and 5 are wrapped in `try`/`catch` blocks that
re-throw only non-`StarkError` exceptions — a `false` verdict raises a
`StarkError` inside the `try` and is then swallowed by the `catch`, so
verification continues; this source behavior is modelled faithfully: only an
exception of the Merkle backend itself (`.error` of `merkleVerifyE`)
propagates. -/
def starkVerifyChecks (env : StarkEnv F) (rouFuel : Nat)
    (assertions : List (AssertionM F)) (proof : StarkProofM F) (iterations : Nat) :
    Option (Except Err Unit) :=
  if assertions.length < 1 then some (.error .assertionsEmpty)
  else
    let steps := env.configSteps * iterations
    let evaluationDomainSize := steps * env.extensionFactor
    let G2 := env.getRootOfUnity evaluationDomainSize
    let spotCheckCount := min env.exeSpotCheckCount
      (evaluationDomainSize - evaluationDomainSize / env.extensionFactor)
    let positions := env.pseudorandomIdx proof.evRoot spotCheckCount
      evaluationDomainSize env.extensionFactor
    let augmentedPositions := starkGetAugmentedPositions positions
      evaluationDomainSize env.extensionFactor
    let pMap := starkBuildEvalMap augmentedPositions
      (proof.evValues.map (fun v => (env.parseEvals v).1))
    let bMap := starkBuildEvalMap augmentedPositions
      (proof.evValues.map (fun v => (env.parseEvals v).2.1))
    let dMap := starkBuildEvalMap augmentedPositions
      (proof.evValues.map (fun v => (env.parseEvals v).2.2))
    let hashedEvaluations := proof.evValues.map env.digest
    let eProof : BatchProofM F :=
      { values := hashedEvaluations, nodes := proof.evNodes, depth := proof.evDepth }
    match env.merkleVerifyE proof.evRoot augmentedPositions eProof with
    | .error _ => some (.error .merkleEval)
    | .ok _ =>
      match env.merkleVerifyE proof.degRoot positions proof.lcProof with
      | .error _ => some (.error .merkleLC)
      | .ok _ =>
        let lMap := starkBuildEvalMap positions proof.lcProof.values
        let lCombinationDegree := (evaluationDomainSize / env.extensionFactor)
          * max (env.maxConstraintDegree - 1) 1
        match verifyOld env.toEnv rouFuel proof.degRoot lCombinationDegree G2
            proof.ldProof with
        | none => none
        | some (.error _, _) => some (.error .lowDegreeFailed)
        | some (.ok _, _) =>
          let lPolyCount := env.constraintCount + 2 * (env.registerCount + env.bpc)
          let lCoefficients := env.prngMany proof.evRoot lPolyCount
          some (starkCheckAllPos env G2 steps evaluationDomainSize lCombinationDegree
            pMap bMap dMap lMap lCoefficients positions)

/-- `Stark.verify` (src/lib/components/TraceBuilder.ts lines 310-472): runs
all checks and then `return true`; all failure paths throw.  `none` models
divergence inside the low-degree verifier's root-of-unity loop. -/
def starkVerify (env : StarkEnv F) (rouFuel : Nat)
    (assertions : List (AssertionM F)) (proof : StarkProofM F) (iterations : Nat) :
    Option (Except Err Bool) :=
  (starkVerifyChecks env rouFuel assertions proof iterations).map
    (fun r => r.map (fun _ => true))

/-! ## Security-option validation (`validateSecurityOptions`,
src/lib/components/TraceBuilder.ts lines 543-583) -/

/-- The security options object (a JS object with possibly missing fields);
counts are modelled as integers. -/
structure SecurityOptionsM where
  extensionFactor : Option Int
  exeSpotCheckCount : Option Int
  friSpotCheckCount : Option Int
  hashAlgorithm : Option String
deriving DecidableEq

/-- The validated options returned on success. -/
structure ValidatedOptions where
  extensionFactor : Int
  exeSpotCheckCount : Int
  friSpotCheckCount : Int
  hashAlgorithm : String
deriving DecidableEq

/-- Modelled from the spec: `isPowerOf2` of `lib/utils` (not under src/);
fueled so that concrete inputs evaluate. -/
def isPowerOf2Aux : Nat → Nat → Bool
  | 0, _ => false
  | fuel + 1, n =>
    if n = 0 then false
    else if n = 1 then true
    else n % 2 == 0 && isPowerOf2Aux fuel (n / 2)

def isPowerOf2 (n : Int) : Bool := isPowerOf2Aux n.toNat n.toNat

theorem pow2_ne_zero (k : Nat) : 2 ^ k ≠ 0 := by
  have : 0 < 2 ^ k := pow_pos (by omega) k
  omega

theorem isPowerOf2Aux_iff (fuel n : Nat) (hf : n ≤ fuel) :
    isPowerOf2Aux fuel n = true ↔ ∃ k, n = 2 ^ k := by
  induction fuel generalizing n with
  | zero =>
    have hn0 : n = 0 := by omega
    subst hn0
    simp only [isPowerOf2Aux]
    constructor
    · intro h
      cases h
    · rintro ⟨k, hk⟩
      exact absurd hk.symm (pow2_ne_zero k)
  | succ fuel ih =>
    unfold isPowerOf2Aux
    by_cases h0 : n = 0
    · subst h0
      simp only [if_pos rfl]
      constructor
      · intro h
        cases h
      · rintro ⟨k, hk⟩
        exact absurd hk.symm (pow2_ne_zero k)
    · rw [if_neg h0]
      by_cases h1 : n = 1
      · subst h1
        simp only [if_pos rfl]
        exact ⟨fun _ => ⟨0, rfl⟩, fun _ => rfl⟩
      · rw [if_neg h1]
        have h2 : 2 ≤ n := by omega
        have hhalf : n / 2 ≤ fuel := by omega
        rw [Bool.and_eq_true, ih (n / 2) hhalf]
        constructor
        · rintro ⟨heven, k, hk⟩
          refine ⟨k + 1, ?_⟩
          have he : n % 2 = 0 := by simpa using heven
          have hp : 2 ^ (k + 1) = 2 * 2 ^ k := by
            rw [pow_succ]
            ring
          omega
        · rintro ⟨k, hk⟩
          have hk1 : 1 ≤ k := by
            rcases Nat.eq_zero_or_pos k with rfl | hpos
            · rw [pow_zero] at hk
              omega
            · exact hpos
          rcases Nat.exists_eq_add_of_le hk1 with ⟨m, hm⟩
          subst hm
          rw [pow_add, pow_one] at hk
          constructor
          · simp only [beq_iff_eq]
            omega
          · exact ⟨m, by omega⟩

theorem floorLog2Aux_spec (fuel n : Nat) (h1 : 1 ≤ n) (hf : n ≤ fuel) :
    2 ^ floorLog2Aux fuel n ≤ n ∧ n < 2 ^ (floorLog2Aux fuel n + 1) := by
  induction fuel generalizing n with
  | zero => omega
  | succ fuel ih =>
    unfold floorLog2Aux
    by_cases hn : n ≤ 1
    · have : n = 1 := by omega
      subst this
      simp
    · rw [if_neg hn]
      have h2 : 2 ≤ n := by omega
      have := ih (n / 2) (by omega) (by omega)
      rcases this with ⟨ha, hb⟩
      constructor
      · calc 2 ^ (floorLog2Aux fuel (n / 2) + 1) = 2 * 2 ^ floorLog2Aux fuel (n / 2) := by
              rw [pow_succ]
              ring
          _ ≤ 2 * (n / 2) := by omega
          _ ≤ n := by omega
      · calc n < 2 * (n / 2) + 2 := by omega
          _ ≤ 2 * 2 ^ (floorLog2Aux fuel (n / 2) + 1) := by omega
          _ = 2 ^ (floorLog2Aux fuel (n / 2) + 1 + 1) := by
              rw [pow_succ]
              ring

/-- The default extension factor
`2 ** Math.ceil(Math.log2(maxConstraintDegree * 2))`. -/
def defaultExtensionFactor (maxConstraintDegree : Int) : Int :=
  2 ^ jsCeilLog2 (maxConstraintDegree * 2).toNat

/-- `validateSecurityOptions` (src/lib/components/TraceBuilder.ts lines
543-583).  Notes on JS semantics kept by the model: a provided spot-check
count of `0` is falsy, so `options.x || DEFAULT` replaces it by the default;
likewise an empty hash-algorithm string; `Number.isInteger` is vacuous under
the integer modelling. -/
def validateSecurityOptions (options : SecurityOptionsM) (maxConstraintDegree : Int) :
    Except Err ValidatedOptions :=
  let efStep : Except Err Int :=
    match options.extensionFactor with
    | none => .ok (defaultExtensionFactor maxConstraintDegree)
    | some v =>
      if v < 2 ∨ v > 32 then .error .configError
      else if ¬ (isPowerOf2 v = true) then .error .configError
      else if v < 2 * maxConstraintDegree then .error .configError
      else .ok v
  match efStep with
  | .error e => .error e
  | .ok extensionFactor =>
    let exeSpotCheckCount : Int :=
      match options.exeSpotCheckCount with
      | none => 80
      | some v => if v = 0 then 80 else v
    if exeSpotCheckCount < 1 ∨ exeSpotCheckCount > 128 then .error .configError
    else
      let friSpotCheckCount : Int :=
        match options.friSpotCheckCount with
        | none => 40
        | some v => if v = 0 then 40 else v
      if friSpotCheckCount < 1 ∨ friSpotCheckCount > 64 then .error .configError
      else
        let hashAlgorithm : String :=
          match options.hashAlgorithm with
          | none => "sha256"
          | some s => if s = "" then "sha256" else s
        if hashAlgorithm = "sha256" ∨ hashAlgorithm = "blake2s256" then
          .ok { extensionFactor := extensionFactor, exeSpotCheckCount := exeSpotCheckCount,
                friSpotCheckCount := friSpotCheckCount, hashAlgorithm := hashAlgorithm }
        else .error .configError

/-! ## Claim theorems -/

theorem except_map_true_cases (u : Except Err Unit) :
    (u.map (fun _ => true) : Except Err Bool) = .ok true
      ∨ ∃ e, (u.map (fun _ => true) : Except Err Bool) = .error e := by
  cases u with
  | error e => exact Or.inr ⟨e, rfl⟩
  | ok _ => exact Or.inl rfl

/-- C1: For every proof object and every set of verifier inputs, each of
`LowDegreeProver.verify` (both versions) and `Stark.verify` either returns
`true` or throws an error; no execution path returns `false`.  (`none` marks
the one non-returning path: divergence of the root-of-unity-degree loop,
excluded by the hypothesis that the fueled loop produced a result.) -/
theorem claim_C1 :
    (∀ (env : Env F) (rootOfUnity : F) (rouFuel : Nat) (proof : LowDegreeProofM F)
        (lcValues : List F) (exeQueryPositions : List Nat) (maxDegreePlus1 : Nat)
        (res : Except Err Bool),
      verifyNew env rootOfUnity rouFuel proof lcValues exeQueryPositions maxDegreePlus1
          = some res →
      res = .ok true ∨ ∃ e, res = .error e)
    ∧ (∀ (env : Env F) (rouFuel : Nat) (lRoot : List F) (maxDegreePlus1 : Nat)
        (rootOfUnity : F) (proof : ProofOldM F) (res : Except Err Bool) (post : ProofOldM F),
      verifyOld env rouFuel lRoot maxDegreePlus1 rootOfUnity proof = some (res, post) →
      res = .ok true ∨ ∃ e, res = .error e)
    ∧ (∀ (env : StarkEnv F) (rouFuel : Nat) (assertions : List (AssertionM F))
        (proof : StarkProofM F) (iterations : Nat) (res : Except Err Bool),
      starkVerify env rouFuel assertions proof iterations = some res →
      res = .ok true ∨ ∃ e, res = .error e) := by
  refine ⟨?_, ?_, ?_⟩
  · intro env rootOfUnity rouFuel proof lcValues exeQueryPositions maxDegreePlus1 res h
    unfold verifyNew at h
    cases hd : getRootOfUnityDegreeF (F := F) rouFuel rootOfUnity with
    | none => rw [hd] at h; cases h
    | some columnLength =>
      rw [hd] at h
      have := Option.some.inj h
      subst this
      exact except_map_true_cases _
  · intro env rouFuel lRoot maxDegreePlus1 rootOfUnity proof res post h
    unfold verifyOld at h
    cases hd : getRootOfUnityDegreeF (F := F) rouFuel rootOfUnity with
    | none => rw [hd] at h; cases h
    | some rouDegree =>
      rw [hd] at h
      have h2 := Option.some.inj h
      have h3 : res = ((verifyOldChecks env rouDegree lRoot maxDegreePlus1 rootOfUnity
          proof).1.map (fun _ => true)) := by
        have := congrArg Prod.fst h2
        exact this.symm
      rw [h3]
      exact except_map_true_cases _
  · intro env rouFuel assertions proof iterations res h
    unfold starkVerify at h
    cases hd : starkVerifyChecks env rouFuel assertions proof iterations with
    | none => rw [hd] at h; cases h
    | some u =>
      rw [hd] at h
      simp only [Option.map_some'] at h
      have := Option.some.inj h
      subst this
      exact except_map_true_cases u

instance : Fact (Nat.Prime 5) := ⟨by norm_num⟩

instance : Fact (Nat.Prime 17) := ⟨by norm_num⟩

/-- A trivial concrete FRI environment over `ZMod 5` for witnesses. -/
def envA : Env (ZMod 5) where
  hashRow := fun _ => []
  mroot := fun _ => []
  mnodes := fun _ _ => []
  mdepth := 0
  merkleVerify := fun _ _ _ => true
  prng := fun _ => 0
  friIdx := fun _ _ => []
  exeIdx := fun _ _ => []
  extensionFactor := 0

/-- A trivial concrete STARK environment over `ZMod 5` for witnesses. -/
def starkEnvA : StarkEnv (ZMod 5) where
  toEnv := { envA with extensionFactor := 2 }
  configSteps := 1
  maxConstraintDegree := 1
  constraintCount := 0
  registerCount := 0
  constantCount := 0
  bpc := 0
  exeSpotCheckCount := 1
  getRootOfUnity := fun _ => 1
  pseudorandomIdx := fun _ _ _ _ => []
  parseEvals := fun _ => ([], [], [])
  digest := fun _ => []
  zEvalAt := fun _ => 0
  kValueAt := fun _ _ => 0
  bEvalAt := fun _ _ => []
  evaluateOne := fun _ _ _ => []
  combine := fun _ _ => 0
  prngMany := fun _ _ => []
  rawMul := fun a b => a * b
  merkleVerifyE := fun _ _ _ => .ok true

/-- An empty new-form proof object for witnesses. -/
def ldProofA : LowDegreeProofM (ZMod 5) :=
  { lcRoot := [], lcProof := { values := [], nodes := [], depth := 0 },
    components := [], remainder := [] }

/-- An old-form proof object with a remainder of 4 zeros for witnesses. -/
def oldProofA : ProofOldM (ZMod 5) :=
  { components := [], remainder := [0, 0, 0, 0] }

/-- A STARK proof object for witnesses. -/
def starkProofA : StarkProofM (ZMod 5) :=
  { evRoot := [], evValues := [], evNodes := [], evDepth := 0,
    degRoot := [], lcProof := { values := [], nodes := [], depth := 0 },
    ldProof := oldProofA }

theorem claim_C1_witness :
    (((Except.ok true : Except Err Bool) = .ok true
        ∨ ∃ e, (Except.ok true : Except Err Bool) = .error e)
      ∧ ((Except.ok true : Except Err Bool) = .ok true
        ∨ ∃ e, (Except.ok true : Except Err Bool) = .error e)
      ∧ ((Except.ok true : Except Err Bool) = .ok true
        ∨ ∃ e, (Except.ok true : Except Err Bool) = .error e)) :=
  ⟨claim_C1.1 envA 1 1 ldProofA [] [] 0 (.ok true) (by rfl),
   claim_C1.2.1 envA 2 [] 0 1 oldProofA (.ok true) oldProofA (by rfl),
   claim_C1.2.2 starkEnvA 2 [⟨0, 0, 0⟩] starkProofA 0 (.ok true) (by rfl)⟩

theorem isPowerOf2_iff (v : Int) : isPowerOf2 v = true ↔ ∃ k : Nat, v = 2 ^ k := by
  unfold isPowerOf2
  rw [isPowerOf2Aux_iff v.toNat v.toNat le_rfl]
  constructor
  · rintro ⟨k, hk⟩
    rcases Int.le_or_lt 0 v with hv | hv
    · refine ⟨k, ?_⟩
      have hv2 : v = (v.toNat : Int) := (Int.toNat_of_nonneg hv).symm
      rw [hv2, hk]
      push_cast
      ring
    · have h0 : v.toNat = 0 := Int.toNat_of_nonpos hv.le
      rw [h0] at hk
      exact absurd hk.symm (pow2_ne_zero k)
  · rintro ⟨k, hk⟩
    refine ⟨k, ?_⟩
    rw [hk]
    have hc : ((2 : Int)) ^ k = ((2 ^ k : Nat) : Int) := by
      push_cast
      ring
    rw [hc, Int.toNat_natCast]

set_option maxHeartbeats 1000000 in
/-- C8 (amended): security-option validation accepts exactly the options whose
`extensionFactor`, when present, is a power of 2 in `[2, 32]` that is also at
least `2 * maxConstraintDegree`; whose `exeSpotCheckCount`, when present and
nonzero, is an integer in `[1, 128]` (absent or zero falls back to the default
80); whose `friSpotCheckCount`, when present and nonzero, is in `[1, 64]`
(default 40); and whose `hashAlgorithm`, when present and nonempty, is one of
`sha256` or `blake2s256` (default `sha256`).  When every field is absent the
defaults are returned, and the default extension factor is the smallest power
of 2 at least `2 * maxConstraintDegree`. -/
theorem claim_C8_amended (options : SecurityOptionsM) (maxConstraintDegree : Int) :
    ((∃ r, validateSecurityOptions options maxConstraintDegree = .ok r) ↔
      ((∀ v, options.extensionFactor = some v →
          (2 ≤ v ∧ v ≤ 32 ∧ (∃ k : Nat, v = 2 ^ k) ∧ 2 * maxConstraintDegree ≤ v))
        ∧ (∀ v, options.exeSpotCheckCount = some v → v ≠ 0 → 1 ≤ v ∧ v ≤ 128)
        ∧ (∀ v, options.friSpotCheckCount = some v → v ≠ 0 → 1 ≤ v ∧ v ≤ 64)
        ∧ (∀ s, options.hashAlgorithm = some s → s ≠ "" →
            (s = "sha256" ∨ s = "blake2s256"))))
    ∧ validateSecurityOptions ⟨none, none, none, none⟩ maxConstraintDegree
        = .ok ⟨defaultExtensionFactor maxConstraintDegree, 80, 40, "sha256"⟩
    ∧ (1 ≤ maxConstraintDegree →
        2 * maxConstraintDegree ≤ defaultExtensionFactor maxConstraintDegree
        ∧ ∀ j : Nat, 2 * maxConstraintDegree ≤ 2 ^ j →
            defaultExtensionFactor maxConstraintDegree ≤ 2 ^ j) := by
  refine ⟨?_, by rfl, ?_⟩
  · obtain ⟨ef, exe, fri, hash⟩ := options
    constructor
    · rintro ⟨r, hok⟩
      unfold validateSecurityOptions at hok
      rcases ef with _ | v <;>
        rcases exe with _ | w <;>
          rcases fri with _ | u <;>
            rcases hash with _ | s <;>
              simp only [] at hok <;>
                split_ifs at hok <;>
                  first
                    | (exact Except.noConfusion hok)
                    | (refine ⟨?_, ?_, ?_, ?_⟩ <;>
                        rintro x hx <;>
                        first
                          | exact Option.noConfusion hx
                          | (injection hx with hx
                             subst hx
                             try intro hne
                             first
                               | (refine ⟨by omega, by omega, ?_, by omega⟩
                                  rw [← isPowerOf2_iff]
                                  tauto)
                               | omega
                               | tauto
                               | (constructor <;> omega)
                               | simp_all))
    · rintro ⟨hef, hexe, hfri, hhash⟩
      have hef2 : ∀ x, ef = some x →
          (2 ≤ x ∧ x ≤ 32 ∧ isPowerOf2 x = true ∧ 2 * maxConstraintDegree ≤ x) := by
        intro x hx
        obtain ⟨h1, h2, h3, h4⟩ := hef x hx
        exact ⟨h1, h2, (isPowerOf2_iff x).mpr h3, h4⟩
      rcases ef with _ | v
      · rcases exe with _ | w
        · rcases fri with _ | u
          · rcases hash with _ | s
            · simp only [validateSecurityOptions] <;>
              split_ifs <;>
                first
                  | exact ⟨_, rfl⟩
                  | omega
                  | tauto
                  | simp_all
            · have hs2 : s = "" ∨ (s = "sha256" ∨ s = "blake2s256") := by
                by_cases hs : s = ""
                · exact Or.inl hs
                · exact Or.inr (hhash s rfl hs)
              simp only [validateSecurityOptions] <;>
              split_ifs <;>
                first
                  | exact ⟨_, rfl⟩
                  | omega
                  | tauto
                  | simp_all
          · rcases hash with _ | s
            · have hu2 : u = 0 ∨ (1 ≤ u ∧ u ≤ 64) := by
                by_cases hu : u = 0
                · exact Or.inl hu
                · exact Or.inr (hfri u rfl hu)
              simp only [validateSecurityOptions] <;>
              split_ifs <;>
                first
                  | exact ⟨_, rfl⟩
                  | omega
                  | tauto
                  | simp_all
            · have hu2 : u = 0 ∨ (1 ≤ u ∧ u ≤ 64) := by
                by_cases hu : u = 0
                · exact Or.inl hu
                · exact Or.inr (hfri u rfl hu)
              have hs2 : s = "" ∨ (s = "sha256" ∨ s = "blake2s256") := by
                by_cases hs : s = ""
                · exact Or.inl hs
                · exact Or.inr (hhash s rfl hs)
              simp only [validateSecurityOptions] <;>
              split_ifs <;>
                first
                  | exact ⟨_, rfl⟩
                  | omega
                  | tauto
                  | simp_all
        · rcases fri with _ | u
          · rcases hash with _ | s
            · have hw2 : w = 0 ∨ (1 ≤ w ∧ w ≤ 128) := by
                by_cases hw : w = 0
                · exact Or.inl hw
                · exact Or.inr (hexe w rfl hw)
              simp only [validateSecurityOptions] <;>
              split_ifs <;>
                first
                  | exact ⟨_, rfl⟩
                  | omega
                  | tauto
                  | simp_all
            · have hw2 : w = 0 ∨ (1 ≤ w ∧ w ≤ 128) := by
                by_cases hw : w = 0
                · exact Or.inl hw
                · exact Or.inr (hexe w rfl hw)
              have hs2 : s = "" ∨ (s = "sha256" ∨ s = "blake2s256") := by
                by_cases hs : s = ""
                · exact Or.inl hs
                · exact Or.inr (hhash s rfl hs)
              simp only [validateSecurityOptions] <;>
              split_ifs <;>
                first
                  | exact ⟨_, rfl⟩
                  | omega
                  | tauto
                  | simp_all
          · rcases hash with _ | s
            · have hw2 : w = 0 ∨ (1 ≤ w ∧ w ≤ 128) := by
                by_cases hw : w = 0
                · exact Or.inl hw
                · exact Or.inr (hexe w rfl hw)
              have hu2 : u = 0 ∨ (1 ≤ u ∧ u ≤ 64) := by
                by_cases hu : u = 0
                · exact Or.inl hu
                · exact Or.inr (hfri u rfl hu)
              simp only [validateSecurityOptions] <;>
              split_ifs <;>
                first
                  | exact ⟨_, rfl⟩
                  | omega
                  | tauto
                  | simp_all
            · have hw2 : w = 0 ∨ (1 ≤ w ∧ w ≤ 128) := by
                by_cases hw : w = 0
                · exact Or.inl hw
                · exact Or.inr (hexe w rfl hw)
              have hu2 : u = 0 ∨ (1 ≤ u ∧ u ≤ 64) := by
                by_cases hu : u = 0
                · exact Or.inl hu
                · exact Or.inr (hfri u rfl hu)
              have hs2 : s = "" ∨ (s = "sha256" ∨ s = "blake2s256") := by
                by_cases hs : s = ""
                · exact Or.inl hs
                · exact Or.inr (hhash s rfl hs)
              simp only [validateSecurityOptions] <;>
              split_ifs <;>
                first
                  | exact ⟨_, rfl⟩
                  | omega
                  | tauto
                  | simp_all
      · rcases exe with _ | w
        · rcases fri with _ | u
          · rcases hash with _ | s
            · obtain ⟨hv1, hv2, hv3, hv4⟩ := hef2 v rfl
              simp only [validateSecurityOptions] <;>
              split_ifs <;>
                first
                  | exact ⟨_, rfl⟩
                  | omega
                  | tauto
                  | simp_all
            · obtain ⟨hv1, hv2, hv3, hv4⟩ := hef2 v rfl
              have hs2 : s = "" ∨ (s = "sha256" ∨ s = "blake2s256") := by
                by_cases hs : s = ""
                · exact Or.inl hs
                · exact Or.inr (hhash s rfl hs)
              simp only [validateSecurityOptions] <;>
              split_ifs <;>
                first
                  | exact ⟨_, rfl⟩
                  | omega
                  | tauto
                  | simp_all
          · rcases hash with _ | s
            · obtain ⟨hv1, hv2, hv3, hv4⟩ := hef2 v rfl
              have hu2 : u = 0 ∨ (1 ≤ u ∧ u ≤ 64) := by
                by_cases hu : u = 0
                · exact Or.inl hu
                · exact Or.inr (hfri u rfl hu)
              simp only [validateSecurityOptions] <;>
              split_ifs <;>
                first
                  | exact ⟨_, rfl⟩
                  | omega
                  | tauto
                  | simp_all
            · obtain ⟨hv1, hv2, hv3, hv4⟩ := hef2 v rfl
              have hu2 : u = 0 ∨ (1 ≤ u ∧ u ≤ 64) := by
                by_cases hu : u = 0
                · exact Or.inl hu
                · exact Or.inr (hfri u rfl hu)
              have hs2 : s = "" ∨ (s = "sha256" ∨ s = "blake2s256") := by
                by_cases hs : s = ""
                · exact Or.inl hs
                · exact Or.inr (hhash s rfl hs)
              simp only [validateSecurityOptions] <;>
              split_ifs <;>
                first
                  | exact ⟨_, rfl⟩
                  | omega
                  | tauto
                  | simp_all
        · rcases fri with _ | u
          · rcases hash with _ | s
            · obtain ⟨hv1, hv2, hv3, hv4⟩ := hef2 v rfl
              have hw2 : w = 0 ∨ (1 ≤ w ∧ w ≤ 128) := by
                by_cases hw : w = 0
                · exact Or.inl hw
                · exact Or.inr (hexe w rfl hw)
              simp only [validateSecurityOptions] <;>
              split_ifs <;>
                first
                  | exact ⟨_, rfl⟩
                  | omega
                  | tauto
                  | simp_all
            · obtain ⟨hv1, hv2, hv3, hv4⟩ := hef2 v rfl
              have hw2 : w = 0 ∨ (1 ≤ w ∧ w ≤ 128) := by
                by_cases hw : w = 0
                · exact Or.inl hw
                · exact Or.inr (hexe w rfl hw)
              have hs2 : s = "" ∨ (s = "sha256" ∨ s = "blake2s256") := by
                by_cases hs : s = ""
                · exact Or.inl hs
                · exact Or.inr (hhash s rfl hs)
              simp only [validateSecurityOptions] <;>
              split_ifs <;>
                first
                  | exact ⟨_, rfl⟩
                  | omega
                  | tauto
                  | simp_all
          · rcases hash with _ | s
            · obtain ⟨hv1, hv2, hv3, hv4⟩ := hef2 v rfl
              have hw2 : w = 0 ∨ (1 ≤ w ∧ w ≤ 128) := by
                by_cases hw : w = 0
                · exact Or.inl hw
                · exact Or.inr (hexe w rfl hw)
              have hu2 : u = 0 ∨ (1 ≤ u ∧ u ≤ 64) := by
                by_cases hu : u = 0
                · exact Or.inl hu
                · exact Or.inr (hfri u rfl hu)
              simp only [validateSecurityOptions] <;>
              split_ifs <;>
                first
                  | exact ⟨_, rfl⟩
                  | omega
                  | tauto
                  | simp_all
            · obtain ⟨hv1, hv2, hv3, hv4⟩ := hef2 v rfl
              have hw2 : w = 0 ∨ (1 ≤ w ∧ w ≤ 128) := by
                by_cases hw : w = 0
                · exact Or.inl hw
                · exact Or.inr (hexe w rfl hw)
              have hu2 : u = 0 ∨ (1 ≤ u ∧ u ≤ 64) := by
                by_cases hu : u = 0
                · exact Or.inl hu
                · exact Or.inr (hfri u rfl hu)
              have hs2 : s = "" ∨ (s = "sha256" ∨ s = "blake2s256") := by
                by_cases hs : s = ""
                · exact Or.inl hs
                · exact Or.inr (hhash s rfl hs)
              simp only [validateSecurityOptions] <;>
              split_ifs <;>
                first
                  | exact ⟨_, rfl⟩
                  | omega
                  | tauto
                  | simp_all
  · intro hmcd
    unfold defaultExtensionFactor jsCeilLog2
    have h2 : 2 ≤ (maxConstraintDegree * 2).toNat := by omega
    have hspec := floorLog2Aux_spec ((maxConstraintDegree * 2).toNat - 1)
      ((maxConstraintDegree * 2).toNat - 1) (by omega) le_rfl
    unfold floorLog2
    set f := floorLog2Aux ((maxConstraintDegree * 2).toNat - 1)
      ((maxConstraintDegree * 2).toNat - 1) with hf
    rcases hspec with ⟨hlow, hhigh⟩
    constructor
    · have hle : (maxConstraintDegree * 2).toNat ≤ 2 ^ (f + 1) := by omega
      have : ((maxConstraintDegree * 2).toNat : Int) ≤ ((2 ^ (f + 1) : Nat) : Int) := by
        exact_mod_cast hle
      push_cast at this
      omega
    · intro j hj
      have hjn : (maxConstraintDegree * 2).toNat ≤ 2 ^ j := by
        have : ((maxConstraintDegree * 2).toNat : Int) = maxConstraintDegree * 2 := by omega
        have h2j : ((2 : Int)) ^ j = ((2 ^ j : Nat) : Int) := by
          push_cast
          ring
        rw [h2j] at hj
        omega
      have hfj : f + 1 ≤ j := by
        by_contra hlt
        have hj1 : j ≤ f := by omega
        have : 2 ^ j ≤ 2 ^ f := Nat.pow_le_pow_right (by omega) hj1
        omega
      have : (2 : Nat) ^ (f + 1) ≤ 2 ^ j := Nat.pow_le_pow_right (by omega) hfj
      have hcast : ((2 ^ (f + 1) : Nat) : Int) ≤ ((2 ^ j : Nat) : Int) := by exact_mod_cast this
      push_cast at hcast
      omega

/-- C8 counterexample: the claim as stated is false on the code in both
directions.  `extensionFactor = 4` is a power of 2 in `[2, 32]`, yet with
`maxConstraintDegree = 3` validation throws (the code also requires
`extensionFactor ≥ 2 * maxConstraintDegree`); and `exeSpotCheckCount = 0` is
not an integer in `[1, 128]`, yet validation accepts it because the JS `||`
treats `0` as absent and substitutes the default 80. -/
theorem claim_C8_counterexample :
    validateSecurityOptions ⟨some 4, none, none, none⟩ 3 = .error .configError
    ∧ validateSecurityOptions ⟨none, some 0, none, none⟩ 3
        = .ok ⟨8, 80, 40, "sha256"⟩ :=
  ⟨by rfl, by rfl⟩

theorem claim_C8_witness :
    2 * (3 : Int) ≤ defaultExtensionFactor 3
    ∧ defaultExtensionFactor 3 ≤ 2 ^ 3 :=
  ⟨((claim_C8_amended ⟨none, none, none, none⟩ 3).2.2 (by decide)).1,
   ((claim_C8_amended ⟨none, none, none, none⟩ 3).2.2 (by decide)).2 3 (by decide)⟩

/-! ### C7: augmented positions of the FRI layers -/

theorem foldl_dedupInsert_map (positions : List Nat) (f : Nat → Nat) (acc : List Nat) :
    positions.foldl (fun a p => dedupInsert a (f p)) acc
      = (positions.map f).foldl dedupInsert acc := by
  induction positions generalizing acc with
  | nil => rfl
  | cons p rest ih => simp [ih]

theorem getAugmentedPositions_eq_firstDedup (positions : List Nat) (columnLength : Nat) :
    getAugmentedPositions positions columnLength
      = firstDedup (positions.map (fun p => p % (columnLength / 4))) := by
  unfold getAugmentedPositions firstDedup
  exact foldl_dedupInsert_map positions (fun p => p % (columnLength / 4)) []

theorem mem_getAugmentedPositions (positions : List Nat) (columnLength : Nat) (p : Nat)
    (hp : p ∈ positions) :
    p % (columnLength / 4) ∈ getAugmentedPositions positions columnLength := by
  rw [getAugmentedPositions_eq_firstDedup, mem_firstDedup]
  exact List.mem_map.mpr ⟨p, hp, rfl⟩

theorem indexOf_getP (l : List Nat) (x : Nat) (hx : x ∈ l) :
    getP l (l.indexOf x) = x := by
  unfold getP
  rw [List.getD_eq_getElem _ _ (List.indexOf_lt_length.mpr hx)]
  exact List.getElem_indexOf (List.indexOf_lt_length.mpr hx)

theorem getRow_map_get (buffers : Nat → List F) (l : List Nat) (i : Nat)
    (hi : i < l.length) :
    getRow (l.map buffers) i = buffers (getP l i) := by
  unfold getRow getP
  rw [List.getD_eq_getElem _ _ (by simpa using hi), List.getD_eq_getElem _ _ hi]
  simp

/-- C7: `getAugmentedPositions` returns the positions reduced modulo
`columnLength / 4`, deduplicated in first-occurrence insertion order (never
sorted), and `parseColumnValues` indexes the stored rows by exactly that
order: when the column proof's buffers are the rows of a matrix `M` listed in
augmented-position order (as the prover stores them), the value parsed for
query position `p` is entry `⌊p / (columnLength/4)⌋` of row `p mod
(columnLength/4)` of `M`. -/
theorem claim_C7 (positions : List Nat) (columnLength : Nat) (M : List (List F)) :
    (getAugmentedPositions positions columnLength
        = firstDedup (positions.map (fun p => p % (columnLength / 4)))
      ∧ (getAugmentedPositions positions columnLength).Nodup
      ∧ (∀ x, x ∈ getAugmentedPositions positions columnLength
          ↔ ∃ p ∈ positions, x = p % (columnLength / 4)))
    ∧ parseColumnValues
        ((getAugmentedPositions positions columnLength).map (fun i => getRow M i))
        positions (getAugmentedPositions positions columnLength) columnLength
      = positions.map (fun p =>
          getE (getRow M (p % (columnLength / 4))) (p / (columnLength / 4))) := by
  refine ⟨⟨getAugmentedPositions_eq_firstDedup positions columnLength, ?_, ?_⟩, ?_⟩
  · rw [getAugmentedPositions_eq_firstDedup]
    exact nodup_firstDedup _
  · intro x
    rw [getAugmentedPositions_eq_firstDedup, mem_firstDedup]
    constructor
    · intro hx
      rcases List.mem_map.mp hx with ⟨p, hp, rfl⟩
      exact ⟨p, hp, rfl⟩
    · rintro ⟨p, hp, rfl⟩
      exact List.mem_map.mpr ⟨p, hp, rfl⟩
  · unfold parseColumnValues
    apply List.map_congr_left
    intro p hp
    dsimp only
    have hmem := mem_getAugmentedPositions positions columnLength p hp
    have hidx : (getAugmentedPositions positions columnLength).indexOf
        (p % (columnLength / 4)) < (getAugmentedPositions positions columnLength).length :=
      List.indexOf_lt_length.mpr hmem
    rw [getRow_map_get (fun i => getRow M i) _ _ hidx, indexOf_getP _ _ hmem]

/-! ### C10: augmented positions and next-step values in the outer STARK -/

theorem foldl_dedupInsert_bind (positions : List Nat) (N skip : Nat) (acc : List Nat) :
    positions.foldl (fun a p => dedupInsert (dedupInsert a p) ((p + skip) % N)) acc
      = (positions.flatMap (fun p => [p, (p + skip) % N])).foldl dedupInsert acc := by
  induction positions generalizing acc with
  | nil => rfl
  | cons p rest ih => simp [ih, List.foldl_cons]

theorem starkAug_eq_firstDedup (positions : List Nat) (N skip : Nat) :
    starkGetAugmentedPositions positions N skip
      = firstDedup (positions.flatMap (fun p => [p, (p + skip) % N])) := by
  unfold starkGetAugmentedPositions firstDedup
  exact foldl_dedupInsert_bind positions N skip []

theorem mem_starkAug (positions : List Nat) (N skip : Nat) (p : Nat) (hp : p ∈ positions) :
    p ∈ starkGetAugmentedPositions positions N skip
      ∧ (p + skip) % N ∈ starkGetAugmentedPositions positions N skip := by
  rw [starkAug_eq_firstDedup]
  constructor <;>
    · rw [mem_firstDedup]
      apply List.mem_flatMap.mpr
      exact ⟨p, hp, by simp⟩

theorem foldl_consPair_eq_reverse (l : List Nat) (f : Nat → Nat × List F)
    (acc : List (Nat × List F)) :
    l.foldl (fun m i => f i :: m) acc = (l.map f).reverse ++ acc := by
  induction l generalizing acc with
  | nil => simp
  | cons a rest ih => simp [ih]

theorem find?_eq_of_nodup_keys (l : List (Nat × List F)) (k : Nat) (v : List F)
    (hmem : (k, v) ∈ l) (hnodup : (l.map Prod.fst).Nodup) :
    l.find? (fun e => e.1 == k) = some (k, v) := by
  induction l with
  | nil => cases hmem
  | cons a rest ih =>
    rcases List.mem_cons.mp hmem with rfl | hmem2
    · exact List.find?_cons_of_pos rest (by simp)
    · have hka : ¬ (a.1 == k) = true := by
        simp only [beq_iff_eq]
        intro he
        apply (List.nodup_cons.mp hnodup).1
        rw [he]
        exact List.mem_map.mpr ⟨(k, v), hmem2, rfl⟩
      rw [List.find?_cons_of_neg rest hka]
      exact ih hmem2 (List.nodup_cons.mp hnodup).2

theorem getP_range_map_self (l : List Nat) :
    (List.range l.length).map (getP l) = l := by
  apply List.ext_getElem
  · simp
  · intro i h1 h2
    simp only [List.getElem_map, List.getElem_range]
    unfold getP
    rw [List.getD_eq_getElem _ _ h2]

theorem starkBuildEvalMap_lookup (aug : List Nat) (merged : Nat → List F)
    (hnodup : aug.Nodup) (q : Nat) (hq : q ∈ aug) :
    mapGet (starkBuildEvalMap aug (aug.map merged)) q = some (merged q) := by
  have hform : starkBuildEvalMap aug (aug.map merged)
      = (aug.map (fun x => (x, merged x))).reverse := by
    unfold starkBuildEvalMap mapSet
    rw [List.length_map]
    rw [foldl_consPair_eq_reverse (List.range aug.length)
      (fun i => (getP aug i, getRow (aug.map merged) i)) []]
    rw [List.append_nil]
    congr 1
    have h1 : (List.range aug.length).map
        (fun i => (getP aug i, getRow (aug.map merged) i))
        = (List.range aug.length).map (fun i => (getP aug i, merged (getP aug i))) := by
      apply List.map_congr_left
      intro i hi
      rw [getRow_map_get merged aug i (List.mem_range.mp hi)]
    rw [h1,
      show (fun i => (getP aug i, merged (getP aug i)))
        = (fun x => (x, merged x)) ∘ getP aug from rfl,
      ← List.map_map, getP_range_map_self]
  rw [hform]
  unfold mapGet
  rw [find?_eq_of_nodup_keys ((aug.map (fun x => (x, merged x))).reverse) q (merged q)
    (by
      rw [List.mem_reverse]
      exact List.mem_map.mpr ⟨q, hq, rfl⟩)
    (by
      rw [List.map_reverse, List.map_map]
      rw [show (Prod.fst ∘ fun x : Nat => (x, merged x)) = id from rfl, List.map_id]
      rw [List.nodup_reverse]
      exact hnodup)]
  rfl

/-- C10: `Stark.getAugmentedPositions` augments each pseudo-random query
position `p` with `(p + extensionFactor) % evaluationDomainSize`, deduplicated
in first-occurrence insertion order; consequently, when the prover stores the
merged evaluations row `merged aug[i]` at index `i` (as `Stark.prove` does),
the verifier's evaluation map resolves both `p` (its `pValues`) and
`(p + extensionFactor) % evaluationDomainSize` (its `npValues`, the merged
evaluations one trace step ahead) for every queried position `p`. -/
theorem claim_C10 (positions : List Nat) (N skip : Nat) (merged : Nat → List F) :
    (starkGetAugmentedPositions positions N skip
        = firstDedup (positions.flatMap (fun p => [p, (p + skip) % N]))
      ∧ (starkGetAugmentedPositions positions N skip).Nodup
      ∧ ∀ p ∈ positions,
          p ∈ starkGetAugmentedPositions positions N skip
            ∧ (p + skip) % N ∈ starkGetAugmentedPositions positions N skip)
    ∧ ∀ p ∈ positions,
        mapGet (starkBuildEvalMap (starkGetAugmentedPositions positions N skip)
            ((starkGetAugmentedPositions positions N skip).map merged))
          ((p + skip) % N) = some (merged ((p + skip) % N))
        ∧ mapGet (starkBuildEvalMap (starkGetAugmentedPositions positions N skip)
            ((starkGetAugmentedPositions positions N skip).map merged))
          p = some (merged p) := by
  have hnodup : (starkGetAugmentedPositions positions N skip).Nodup := by
    rw [starkAug_eq_firstDedup]
    exact nodup_firstDedup _
  refine ⟨⟨starkAug_eq_firstDedup positions N skip, hnodup,
    fun p hp => mem_starkAug positions N skip p hp⟩, fun p hp => ?_⟩
  obtain ⟨hmem1, hmem2⟩ := mem_starkAug positions N skip p hp
  exact ⟨starkBuildEvalMap_lookup _ merged hnodup _ hmem2,
    starkBuildEvalMap_lookup _ merged hnodup _ hmem1⟩

theorem claim_C10_witness :
    mapGet (starkBuildEvalMap (starkGetAugmentedPositions [0, 3] 8 2)
        ((starkGetAugmentedPositions [0, 3] 8 2).map (fun q => [(q : ZMod 5)])))
      ((3 + 2) % 8) = some [(((3 + 2) % 8 : Nat) : ZMod 5)] :=
  ((claim_C10 [0, 3] 8 2 (fun q => [(q : ZMod 5)])).2 3 (by simp)).1

/-! ### C3: termination and remainder shape of the `fri` recursion -/

theorem div4_pow_succ (a k : Nat) : a / 4 / 4 ^ k = a / 4 ^ (k + 1) := by
  rw [Nat.div_div_eq_div_mul, mul_comm 4 (4 ^ k), ← pow_succ]

theorem evalQuarticBatch_length (polys : List (List F)) (x : F) :
    (evalQuarticBatch polys x).length = polys.length := by
  simp [evalQuarticBatch]

theorem interpolateQuarticBatch_length (xs ys : List (List F)) :
    (interpolateQuarticBatch xs ys).length = min xs.length ys.length := by
  simp [interpolateQuarticBatch]

theorem friFuel_run (env : Env F) (domain : List F) (fuel : Nat) :
    ∀ (pLeaves : List (List F)) (pv : List (List F)) (maxD depth : Nat),
      (∀ r ∈ pv, r.length = 4) → 0 < pv.length →
      domain.length / 4 ^ depth / 4 = pv.length → pv.length < fuel →
      friFuel env fuel pLeaves pv maxD depth domain ≠ none
      ∧ ∀ comps rem,
          friFuel env fuel pLeaves pv maxD depth domain = some (.ok (comps, rem)) →
          rem.length = 4 * (pv.length / 4 ^ comps.length)
          ∧ rem.length ≤ 256
          ∧ (∀ m, pv.length = 2 ^ m → ∃ j, rem.length = 2 ^ j)
          ∧ ∀ k < comps.length, 256 < 4 * (pv.length / 4 ^ k) := by
  induction fuel with
  | zero =>
    intro pLeaves pv maxD depth _ hpos _ hfuel
    omega
  | succ n ih =>
    intro pLeaves pv maxD depth hrows hpos hdom hfuel
    by_cases hguard : pv.length * 4 ≤ 256
    · constructor
      · simp only [friFuel]
        rw [if_pos hguard]
        cases verifyRemainder env (joinMatrixRows (transposeMatrix pv)) maxD
            (getE domain 1 ^ 4 ^ depth) <;> simp
      · intro comps rem h
        simp only [friFuel] at h
        rw [if_pos hguard] at h
        cases hvr : verifyRemainder env (joinMatrixRows (transposeMatrix pv)) maxD
            (getE domain 1 ^ 4 ^ depth) with
        | error e =>
          rw [hvr] at h
          simp at h
        | ok u =>
          rw [hvr] at h
          simp only [Option.some.injEq, Except.ok.injEq, Prod.mk.injEq] at h
          obtain ⟨hc, hr⟩ := h
          subst hc
          subst hr
          have hlen := joinMatrixRows_transposeMatrix_length pv hrows
          refine ⟨by simp [hlen], by rw [hlen]; omega, ?_, by simp⟩
          intro m hm
          refine ⟨m + 2, ?_⟩
          rw [hlen, hm, pow_succ, pow_succ]
          ring
    · have hxs : (transposeVector domain 4 (4 ^ depth)).length = pv.length := by
        rw [transposeVector_length, hdom]
      have hcol : (evalQuarticBatch
          (interpolateQuarticBatch (transposeVector domain 4 (4 ^ depth)) pv)
          (env.prng (env.mroot pLeaves))).length = pv.length := by
        rw [evalQuarticBatch_length, interpolateQuarticBatch_length, hxs, min_self]
      have hnewlen : (transposeVector (evalQuarticBatch
          (interpolateQuarticBatch (transposeVector domain 4 (4 ^ depth)) pv)
          (env.prng (env.mroot pLeaves))) 4 1).length = pv.length / 4 := by
        rw [transposeVector_length, hcol, Nat.div_one]
      have hnpos : 0 < pv.length / 4 := by omega
      have hnfuel : pv.length / 4 < n := by omega
      have hndom : domain.length / 4 ^ (depth + 1) / 4 = pv.length / 4 := by
        rw [← hdom, Nat.div_div_eq_div_mul, Nat.div_div_eq_div_mul,
          Nat.div_div_eq_div_mul, pow_succ, mul_assoc]
      obtain ⟨hne, hprops⟩ := ih
        (List.map env.hashRow (transposeVector (evalQuarticBatch
          (interpolateQuarticBatch (transposeVector domain 4 (4 ^ depth)) pv)
          (env.prng (env.mroot pLeaves))) 4 1))
        (transposeVector (evalQuarticBatch
          (interpolateQuarticBatch (transposeVector domain 4 (4 ^ depth)) pv)
          (env.prng (env.mroot pLeaves))) 4 1)
        (nextDegreeBound maxD) (depth + 1)
        (transposeVector_row_length _ 4 1)
        (by rw [hnewlen]; exact hnpos)
        (by rw [hnewlen]; exact hndom)
        (by rw [hnewlen]; exact hnfuel)
      constructor
      · simp only [friFuel]
        rw [if_neg hguard]
        cases hres : friFuel env n
            (List.map env.hashRow (transposeVector (evalQuarticBatch
              (interpolateQuarticBatch (transposeVector domain 4 (4 ^ depth)) pv)
              (env.prng (env.mroot pLeaves))) 4 1))
            (transposeVector (evalQuarticBatch
              (interpolateQuarticBatch (transposeVector domain 4 (4 ^ depth)) pv)
              (env.prng (env.mroot pLeaves))) 4 1)
            (nextDegreeBound maxD) (depth + 1) domain with
        | none => exact absurd hres hne
        | some r =>
          cases r with
          | error e => simp
          | ok pr =>
            obtain ⟨c, r2⟩ := pr
            simp
      · intro comps rem h
        simp only [friFuel] at h
        rw [if_neg hguard] at h
        cases hres : friFuel env n
            (List.map env.hashRow (transposeVector (evalQuarticBatch
              (interpolateQuarticBatch (transposeVector domain 4 (4 ^ depth)) pv)
              (env.prng (env.mroot pLeaves))) 4 1))
            (transposeVector (evalQuarticBatch
              (interpolateQuarticBatch (transposeVector domain 4 (4 ^ depth)) pv)
              (env.prng (env.mroot pLeaves))) 4 1)
            (nextDegreeBound maxD) (depth + 1) domain with
        | none => exact absurd hres hne
        | some r =>
          rw [hres] at h
          cases r with
          | error e => simp at h
          | ok pr =>
            obtain ⟨comps', rem'⟩ := pr
            simp only [Option.some.injEq, Except.ok.injEq, Prod.mk.injEq] at h
            obtain ⟨hc, hr⟩ := h
            subst hc
            subst hr
            obtain ⟨h1, h2, h3, h4⟩ := hprops comps' rem' hres
            rw [hnewlen] at h1 h3 h4
            refine ⟨?_, h2, ?_, ?_⟩
            · rw [h1, List.length_cons, div4_pow_succ]
            · intro m hm
              have h64 : 64 < pv.length := by omega
              have hm7 : 6 < m := by
                have h6 : (2 : Nat) ^ 6 < 2 ^ m := by
                  rw [← hm]
                  omega
                exact (Nat.pow_lt_pow_iff_right (by norm_num)).mp h6
              apply h3 (m - 2)
              rw [hm, show (4 : Nat) = 2 ^ 2 from rfl,
                Nat.pow_div (by omega) (by norm_num)]
            · intro k hk
              cases k with
              | zero => simpa using (by omega : 256 < 4 * pv.length)
              | succ j =>
                have hj : j < comps'.length := by
                  rw [List.length_cons] at hk
                  omega
                have hlayer := h4 j hj
                rw [div4_pow_succ] at hlayer
                exact hlayer

/-- C3: for a four-column input matrix whose total element count
`N = 4 * pv.length` is a power of two (and whose row count matches the
evaluation domain at the current depth), the recursive `fri` procedure
terminates within `pv.length + 1` recursive calls (it never runs out of
fuel); the remainder attached to the returned proof has length
`N / 4 ^ components`, is at most `MAX_REMAINDER_LENGTH = 256`, and is a power
of two; and the recursion stops exactly at the first depth whose element
count is at most 256 — every earlier layer's element count exceeds 256 and
each recursive call divides the element count by 4. -/
theorem claim_C3 (env : Env F) (domain : List F) (fuel : Nat)
    (pLeaves : List (List F)) (pv : List (List F)) (maxD depth m : Nat)
    (hrows : ∀ r ∈ pv, r.length = 4)
    (hm : pv.length = 2 ^ m)
    (hdom : domain.length / 4 ^ depth / 4 = pv.length)
    (hfuel : pv.length < fuel) :
    friFuel env fuel pLeaves pv maxD depth domain ≠ none
    ∧ ∀ comps rem,
        friFuel env fuel pLeaves pv maxD depth domain = some (.ok (comps, rem)) →
        rem.length = 4 * (pv.length / 4 ^ comps.length)
        ∧ rem.length ≤ 256
        ∧ (∃ j, rem.length = 2 ^ j)
        ∧ 4 * (pv.length / 4 ^ comps.length) ≤ 256
        ∧ ∀ k < comps.length, 256 < 4 * (pv.length / 4 ^ k) := by
  have hpos : 0 < pv.length := by
    rw [hm]
    exact pow_pos (by norm_num) m
  obtain ⟨hne, hp⟩ := friFuel_run env domain fuel pLeaves pv maxD depth hrows hpos hdom hfuel
  refine ⟨hne, fun comps rem h => ?_⟩
  obtain ⟨h1, h2, h3, h4⟩ := hp comps rem h
  exact ⟨h1, h2, h3 m hm, by rw [← h1]; exact h2, h4⟩

theorem claim_C3_witness :
    friFuel envA 2 [] [[0, 0, 0, 0]] 0 0 [0, 0, 0, 0] ≠ none :=
  (claim_C3 envA [0, 0, 0, 0] 2 [] [[0, 0, 0, 0]] 0 0 0
    (by simp) (by rfl) (by rfl) (by norm_num)).1

/-! ### C4: the degree bound evolves by floor division, not ceiling -/

theorem nextDegreeBound_iterate (d k : Nat) :
    Nat.iterate nextDegreeBound k d = d / 4 ^ k := by
  induction k with
  | zero => simp
  | succ k ih =>
    rw [Function.iterate_succ_apply', ih]
    unfold nextDegreeBound
    rw [Nat.div_div_eq_div_mul, ← pow_succ]

theorem verifyNewLoop_degree (env : Env F) (q : List F) (comps : List (FriComponentM F)) :
    ∀ (pRoot : List F) (rou : F) (maxD colLen depth : Nat)
      (pRoot2 : List F) (rou2 : F) (maxD2 : Nat),
      verifyNewLoop env q comps pRoot rou maxD colLen depth
        = .ok (pRoot2, rou2, maxD2) →
      maxD2 = maxD / 4 ^ comps.length := by
  induction comps with
  | nil =>
    intro pRoot rou maxD colLen depth pRoot2 rou2 maxD2 h
    simp only [verifyNewLoop, Except.ok.injEq, Prod.mk.injEq] at h
    rw [← h.2.2]
    simp
  | cons comp rest ih =>
    intro pRoot rou maxD colLen depth pRoot2 rou2 maxD2 h
    simp only [verifyNewLoop] at h
    cases hlc : friLayerCheck env q pRoot rou colLen depth comp with
    | error e =>
      rw [hlc] at h
      simp at h
    | ok u =>
      rw [hlc] at h
      have hrec := ih comp.columnRoot (rou ^ 4) (nextDegreeBound maxD)
        (colLen / 4) (depth + 1) pRoot2 rou2 maxD2 h
      rw [hrec, List.length_cons]
      unfold nextDegreeBound
      rw [div4_pow_succ]

/-- C4 (amended): the claimed degree bound evolves by iterated FLOOR division
by 4 — `maxDegreePlus1 >> 2` in the source — not by the ceiling the spec
states: each folding step (the prover's recursive `fri` call and the
verifier's per-component update) maps the bound `d` to `⌊d / 4⌋`, so the
bound reached after `k` steps (equivalently, carried out of a `k`-component
verifier loop) is `⌊d* / 4^k⌋`. -/
theorem claim_C4_amended :
    (∀ d : Nat, nextDegreeBound d = d / 4)
    ∧ (∀ d k : Nat, Nat.iterate nextDegreeBound k d = d / 4 ^ k)
    ∧ ∀ (env : Env F) (q : List F) (comps : List (FriComponentM F))
        (pRoot : List F) (rou : F) (maxD colLen depth : Nat)
        (pRoot2 : List F) (rou2 : F) (maxD2 : Nat),
        verifyNewLoop env q comps pRoot rou maxD colLen depth
          = .ok (pRoot2, rou2, maxD2) →
        maxD2 = maxD / 4 ^ comps.length :=
  ⟨fun _ => rfl, nextDegreeBound_iterate,
    fun env q comps pRoot rou maxD colLen depth pRoot2 rou2 maxD2 h =>
      verifyNewLoop_degree env q comps pRoot rou maxD colLen depth pRoot2 rou2 maxD2 h⟩

/-- C4 counterexample to the spec's ceiling formula: starting from degree
bound `d* = 5`, one folding step yields `⌊5 / 4⌋ = 1`, while the spec's
`⌈5 / 4⌉ = 2`. -/
theorem claim_C4_counterexample :
    Nat.iterate nextDegreeBound 1 5 = 1 ∧ (5 + 4 - 1) / 4 = 2 ∧ (1 : Nat) ≠ 2 := by
  refine ⟨?_, by norm_num, by norm_num⟩
  rfl

theorem claim_C4_witness :
    (7 : Nat) = 7 / 4 ^ List.length ([] : List (FriComponentM (ZMod 5))) :=
  (@claim_C4_amended (ZMod 5) _ _).2.2 envA [] [] [] 1 7 4 0 [] 1 7 (by rfl)

/-! ### C5: `getComponentCount` clamps with `min` instead of `max` -/

/-- C5 (code bug): `getComponentCount` computes
`Math.min(result, 0)` where the spec (and the surrounding code's needs)
require `Math.max(result, 0)`.  Consequently the returned component count is
never positive: for `N = 64` it is `-1`, so `LowDegreeProver.prove` throws a
`RangeError` from `new Array(-1)` for every domain and degree bound, and for
`N = 4096` it is `0` where the spec's formula `max(0, ⌈log2 N / 2⌉ − 4)`
gives `2`. -/
theorem claim_C5 :
    getComponentCount 64 = -1
    ∧ getComponentCount 64 ≠ max ((((jsCeilLog2 64 + 1) / 2 : Nat) : Int) - 4) 0
    ∧ (∀ (domain : List (ZMod 5)) (maxD : Nat),
        proveNew envA (List.replicate 64 (0 : ZMod 5)) domain maxD
          = some (.error .rangeError))
    ∧ getComponentCount 4096 = 0
    ∧ max ((((jsCeilLog2 4096 + 1) / 2 : Nat) : Int) - 4) 0 = 2
    ∧ getComponentCount 4096 ≠ max ((((jsCeilLog2 4096 + 1) / 2 : Nat) : Int) - 4) 0 := by
  refine ⟨by decide, by decide, ?_, by decide, by decide, by decide⟩
  intro domain maxD
  rfl

/-! ### C9: the older verifier mutates the proof object it receives -/

/-- Environment for the mutation exhibit: the hash backend maps every row to
`[0]` and the Merkle backend rejects every batch proof. -/
def envC9 : Env (ZMod 5) where
  hashRow := fun _ => [0]
  mroot := fun _ => []
  mnodes := fun _ _ => []
  mdepth := 0
  merkleVerify := fun _ _ _ => false
  prng := fun _ => 0
  friIdx := fun _ _ => []
  exeIdx := fun _ _ => []
  extensionFactor := 0

/-- A one-component proof whose column proof holds raw 4-element rows. -/
def proofC9 : ProofOldM (ZMod 5) where
  components := [⟨[], ⟨[[1, 2, 3, 4]], [], 0⟩, ⟨[], [], 0⟩⟩]
  remainder := []

/-- C9 (code bug): the older `LowDegreeProver.verify` (src/unnamed/part_000,
`// TODO: don't mutate the proof`) overwrites `columnProof.values` on the
proof object it receives with hash digests before the Merkle check.  On this
input it throws a `StarkError` for the first component, and the proof object
it leaves behind differs from the one it was given: the revealed rows
`[[1, 2, 3, 4]]` have been replaced by their digests `[[0]]`.  The spec's
"verifier inputs are read-only borrows" is violated. -/
theorem claim_C9 :
    verifyOld envC9 1 [] 0 1 proofC9
      = some (.error (.merkleColumn 0),
          { proofC9 with components := [⟨[], ⟨[[0]], [], 0⟩, ⟨[], [], 0⟩⟩] })
    ∧ ({ proofC9 with components := [⟨[], ⟨[[0]], [], 0⟩, ⟨[], [], 0⟩⟩] } : ProofOldM (ZMod 5))
        ≠ proofC9 := by
  constructor
  · rfl
  · decide

/-! ### C6: the remainder check (`verifyRemainder`) -/

theorem getP_eq_get (xs : List Nat) (i : Nat) (h : i < xs.length) :
    getP xs i = xs.get ⟨i, h⟩ := by
  unfold getP
  rw [List.getD_eq_getElem _ _ h]
  simp

theorem mem_drop_range (n d i : Nat) : i ∈ (List.range n).drop d ↔ d ≤ i ∧ i < n := by
  constructor
  · intro h
    rcases List.mem_iff_getElem.mp h with ⟨k, hk, hek⟩
    rw [List.getElem_drop, List.getElem_range] at hek
    have hlen := hk
    rw [List.length_drop, List.length_range] at hlen
    omega
  · intro hdi
    apply List.mem_iff_getElem.mpr
    refine ⟨i - d, ?_, ?_⟩
    · rw [List.length_drop, List.length_range]
      omega
    · rw [List.getElem_drop, List.getElem_range]
      omega

theorem remainderPositions_nodup (ef R : Nat) : (remainderPositions ef R).Nodup :=
  (List.nodup_range R).filter _

theorem mem_remainderPositions (ef R p : Nat) :
    p ∈ remainderPositions ef R ↔ p < R ∧ (ef = 0 ∨ p % ef ≠ 0) := by
  unfold remainderPositions
  rw [List.mem_filter, List.mem_range]
  simp [Bool.or_eq_true, beq_iff_eq, bne_iff_ne]

theorem getP_remainderPositions_lt (ef R i : Nat)
    (hi : i < (remainderPositions ef R).length) :
    getP (remainderPositions ef R) i < R := by
  rw [getP_eq_get _ _ hi]
  exact ((mem_remainderPositions ef R _).mp (List.get_mem _ _ _)).1

theorem getE_getPowerSeries (rou : F) (R p : Nat) (hp : p < R) :
    getE (getPowerSeries rou R) p = rou ^ p := by
  unfold getPowerSeries
  exact getE_map_range _ R p hp

/-- The interpolated polynomial of `verifyRemainder` (its local `P`):
the first `maxDegreePlus1` pairs `(ω^p, remainder[p])` over the selected
positions. -/
def remainderPoly (env : Env F) (remainder : List F) (maxDegreePlus1 : Nat)
    (rootOfUnity : F) : List F :=
  let positions := remainderPositions env.extensionFactor remainder.length
  let domain := getPowerSeries rootOfUnity remainder.length
  interpolate
    ((List.range maxDegreePlus1).map (fun i => getE domain (getP positions i)))
    ((List.range maxDegreePlus1).map (fun i => getE remainder (getP positions i)))

/-- C6: `verifyRemainder` selects exactly the positions `i < R` with
`extensionFactor = 0` or `i % extensionFactor ≠ 0`; it succeeds iff the
polynomial interpolated from the first `maxDegreePlus1` selected pairs
matches the remainder at every later selected position (the x-coordinates
being the powers `ω^p`); and it returns without error whenever the remainder
is the evaluation of a polynomial of degree below `maxDegreePlus1` on the
power domain (with `ω` injective on exponents below `R`). -/
theorem claim_C6 (env : Env F) (rem : List F) (d : Nat) (rou : F) :
    (∀ p, p ∈ remainderPositions env.extensionFactor rem.length
        ↔ p < rem.length ∧ (env.extensionFactor = 0 ∨ p % env.extensionFactor ≠ 0))
    ∧ (verifyRemainder env rem d rou = .ok ()
        ↔ ∀ i ∈ (List.range
              (remainderPositions env.extensionFactor rem.length).length).drop d,
            polyEval (remainderPoly env rem d rou)
              (getE (getPowerSeries rou rem.length)
                (getP (remainderPositions env.extensionFactor rem.length) i))
              = getE rem (getP (remainderPositions env.extensionFactor rem.length) i))
    ∧ (∀ i, i < (remainderPositions env.extensionFactor rem.length).length →
        getE (getPowerSeries rou rem.length)
            (getP (remainderPositions env.extensionFactor rem.length) i)
          = rou ^ getP (remainderPositions env.extensionFactor rem.length) i)
    ∧ ∀ q : List F, q.length ≤ d →
        (∀ i ∈ List.range rem.length, ∀ j ∈ List.range rem.length,
            rou ^ i = rou ^ j → i = j) →
        (∀ p ∈ List.range rem.length, getE rem p = polyEval q (rou ^ p)) →
        d ≤ (remainderPositions env.extensionFactor rem.length).length →
        verifyRemainder env rem d rou = .ok () := by
  have hrw : verifyRemainder env rem d rou
      = ensureAll .remainderDegree
          ((List.range
            (remainderPositions env.extensionFactor rem.length).length).drop d)
          (fun i => decide (polyEval (remainderPoly env rem d rou)
            (getE (getPowerSeries rou rem.length)
              (getP (remainderPositions env.extensionFactor rem.length) i))
            = getE rem (getP (remainderPositions env.extensionFactor rem.length) i))) := rfl
  refine ⟨mem_remainderPositions env.extensionFactor rem.length, ?_, ?_, ?_⟩
  · rw [hrw, ensureAll_ok_iff]
    simp only [decide_eq_true_eq]
  · intro i hi
    exact getE_getPowerSeries rou rem.length _
      (getP_remainderPositions_lt env.extensionFactor rem.length i hi)
  · intro q hqlen hinj hrem hd
    rw [hrw, ensureAll_ok_iff]
    intro i hi
    rw [decide_eq_true_eq]
    obtain ⟨hdi, hiP⟩ := (mem_drop_range _ d i).mp hi
    have hPi : getP (remainderPositions env.extensionFactor rem.length) i < rem.length :=
      getP_remainderPositions_lt env.extensionFactor rem.length i hiP
    have hxslen : ((List.range d).map (fun j => getE (getPowerSeries rou rem.length)
        (getP (remainderPositions env.extensionFactor rem.length) j))).length = d := by
      simp
    have hdist : NodesDistinct ((List.range d).map
        (fun j => getE (getPowerSeries rou rem.length)
          (getP (remainderPositions env.extensionFactor rem.length) j))) := by
      intro a b ha hb hne
      rw [hxslen] at ha hb
      rw [getE_map_range _ d a ha, getE_map_range _ d b hb]
      have haP : a < (remainderPositions env.extensionFactor rem.length).length :=
        lt_of_lt_of_le ha hd
      have hbP : b < (remainderPositions env.extensionFactor rem.length).length :=
        lt_of_lt_of_le hb hd
      have haR := getP_remainderPositions_lt env.extensionFactor rem.length a haP
      have hbR := getP_remainderPositions_lt env.extensionFactor rem.length b hbP
      rw [getE_getPowerSeries rou rem.length _ haR, getE_getPowerSeries rou rem.length _ hbR]
      intro heq
      have hPab := hinj _ (List.mem_range.mpr haR) _ (List.mem_range.mpr hbR) heq
      rw [getP_eq_get _ a haP, getP_eq_get _ b hbP] at hPab
      have hfin := (List.nodup_iff_injective_get.mp
        (remainderPositions_nodup env.extensionFactor rem.length)) hPab
      exact hne (congrArg Fin.val hfin)
    have hys : ∀ k, k < ((List.range d).map (fun j => getE (getPowerSeries rou rem.length)
        (getP (remainderPositions env.extensionFactor rem.length) j))).length →
        getE ((List.range d).map (fun j => getE rem
          (getP (remainderPositions env.extensionFactor rem.length) j))) k
        = polyEval q (getE ((List.range d).map
          (fun j => getE (getPowerSeries rou rem.length)
            (getP (remainderPositions env.extensionFactor rem.length) j))) k) := by
      intro k hk
      rw [hxslen] at hk
      have hkP : k < (remainderPositions env.extensionFactor rem.length).length :=
        lt_of_lt_of_le hk hd
      have hkR := getP_remainderPositions_lt env.extensionFactor rem.length k hkP
      rw [getE_map_range _ d k hk, getE_map_range _ d k hk,
        getE_getPowerSeries rou rem.length _ hkR]
      exact hrem _ (List.mem_range.mpr hkR)
    have hall := interpolate_eval_eq_of_lowdegree
      ((List.range d).map (fun j => getE (getPowerSeries rou rem.length)
        (getP (remainderPositions env.extensionFactor rem.length) j)))
      ((List.range d).map (fun j => getE rem
        (getP (remainderPositions env.extensionFactor rem.length) j)))
      q hdist (by rw [hxslen]; exact hqlen) hys
    rw [show remainderPoly env rem d rou = interpolate
        ((List.range d).map (fun j => getE (getPowerSeries rou rem.length)
          (getP (remainderPositions env.extensionFactor rem.length) j)))
        ((List.range d).map (fun j => getE rem
          (getP (remainderPositions env.extensionFactor rem.length) j))) from rfl]
    rw [hall (getE (getPowerSeries rou rem.length)
      (getP (remainderPositions env.extensionFactor rem.length) i))]
    rw [getE_getPowerSeries rou rem.length _ hPi]
    exact (hrem _ (List.mem_range.mpr hPi)).symm

theorem claim_C6_witness :
    verifyRemainder envA [0, 0, 0, 0] 0 2 = .ok () :=
  (claim_C6 envA [0, 0, 0, 0] 0 2).2.2.2 [] (by decide) (by decide) (by decide) (by decide)

/-! ### C2: the per-layer interpolation check of the FRI verifier -/

theorem getE_map_poly (f : List F → F) (l : List (List F)) (i : Nat) (hi : i < l.length) :
    getE (l.map f) i = f (getRow l i) := by
  unfold getE getRow
  rw [List.getD_eq_getElem _ _ (by simpa using hi), List.getD_eq_getElem _ _ hi]
  simp

theorem getE_map_getP (f : Nat → F) (l : List Nat) (i : Nat) (hi : i < l.length) :
    getE (l.map f) i = f (getP l i) := by
  unfold getE getP
  rw [List.getD_eq_getElem _ _ (by simpa using hi), List.getD_eq_getElem _ _ hi]
  simp

theorem getRow_zipWith (f : List F → List F → List F) (xs ys : List (List F)) (i : Nat)
    (hi : i < min xs.length ys.length) :
    getRow (List.zipWith f xs ys) i = f (getRow xs i) (getRow ys i) := by
  unfold getRow
  have h1 : i < xs.length := lt_of_lt_of_le hi (min_le_left _ _)
  have h2 : i < ys.length := lt_of_lt_of_le hi (min_le_right _ _)
  rw [List.getD_eq_getElem _ _ (by simpa [List.length_zipWith] using hi),
    List.getD_eq_getElem _ _ h1, List.getD_eq_getElem _ _ h2]
  exact List.getElem_zipWith

theorem friEvalCheck_ok_iff (quartic : List F) (rou sx : F) (positions : List Nat)
    (pv : List (List F)) (cv : List F) (depth : Nat) :
    friEvalCheck quartic rou sx positions pv cv depth = .ok ()
    ↔ ∀ i, i < min positions.length pv.length →
        polyEval (interpolate
          [getE quartic 0 * rou ^ getP positions i,
           getE quartic 1 * rou ^ getP positions i,
           getE quartic 2 * rou ^ getP positions i,
           getE quartic 3 * rou ^ getP positions i]
          (getRow pv i)) sx
        = getE cv i := by
  have hrw : friEvalCheck quartic rou sx positions pv cv depth
      = ensureAll (.evalMismatch depth)
          (List.range (interpolateQuarticBatch (positions.map (fun p =>
            [getE quartic 0 * rou ^ p, getE quartic 1 * rou ^ p,
             getE quartic 2 * rou ^ p, getE quartic 3 * rou ^ p])) pv).length)
          (fun i => decide (getE (evalQuarticBatch (interpolateQuarticBatch
            (positions.map (fun p =>
              [getE quartic 0 * rou ^ p, getE quartic 1 * rou ^ p,
               getE quartic 2 * rou ^ p, getE quartic 3 * rou ^ p])) pv) sx) i
            = getE cv i)) := rfl
  have hlen : (interpolateQuarticBatch (positions.map (fun p =>
      [getE quartic 0 * rou ^ p, getE quartic 1 * rou ^ p,
       getE quartic 2 * rou ^ p, getE quartic 3 * rou ^ p])) pv).length
      = min positions.length pv.length := by
    rw [interpolateQuarticBatch_length, List.length_map]
  have hpt : ∀ i, i < min positions.length pv.length →
      getE (evalQuarticBatch (interpolateQuarticBatch (positions.map (fun p =>
        [getE quartic 0 * rou ^ p, getE quartic 1 * rou ^ p,
         getE quartic 2 * rou ^ p, getE quartic 3 * rou ^ p])) pv) sx) i
      = polyEval (interpolate
          [getE quartic 0 * rou ^ getP positions i,
           getE quartic 1 * rou ^ getP positions i,
           getE quartic 2 * rou ^ getP positions i,
           getE quartic 3 * rou ^ getP positions i]
          (getRow pv i)) sx := by
    intro i hi
    rw [show evalQuarticBatch (interpolateQuarticBatch (positions.map (fun p =>
        [getE quartic 0 * rou ^ p, getE quartic 1 * rou ^ p,
         getE quartic 2 * rou ^ p, getE quartic 3 * rou ^ p])) pv) sx
      = (interpolateQuarticBatch (positions.map (fun p =>
        [getE quartic 0 * rou ^ p, getE quartic 1 * rou ^ p,
         getE quartic 2 * rou ^ p, getE quartic 3 * rou ^ p])) pv).map
          (fun q => polyEval q sx) from rfl]
    rw [getE_map_poly (fun q => polyEval q sx) _ i (by rw [hlen]; exact hi)]
    rw [show interpolateQuarticBatch (positions.map (fun p =>
        [getE quartic 0 * rou ^ p, getE quartic 1 * rou ^ p,
         getE quartic 2 * rou ^ p, getE quartic 3 * rou ^ p])) pv
      = List.zipWith interpolate (positions.map (fun p =>
        [getE quartic 0 * rou ^ p, getE quartic 1 * rou ^ p,
         getE quartic 2 * rou ^ p, getE quartic 3 * rou ^ p])) pv from rfl]
    rw [getRow_zipWith interpolate _ pv i (by rw [List.length_map]; exact hi)]
    rw [getRow_map_get (fun p =>
      [getE quartic 0 * rou ^ p, getE quartic 1 * rou ^ p,
       getE quartic 2 * rou ^ p, getE quartic 3 * rou ^ p]) positions i
      (lt_of_lt_of_le hi (min_le_left _ _))]
  rw [hrw, ensureAll_ok_iff]
  constructor
  · intro h i hi
    rw [← hpt i hi]
    have hmem := h i (List.mem_range.mpr (by rw [hlen]; exact hi))
    rw [decide_eq_true_eq] at hmem
    exact hmem
  · intro h i hmem
    rw [decide_eq_true_eq]
    have hi : i < min positions.length pv.length := by
      rw [← hlen]
      exact List.mem_range.mp hmem
    rw [hpt i hi]
    exact h i hi

theorem transposeVector_powerSeries_row (g : F) (N k p : Nat)
    (hdvd : 4 ^ (k + 1) ∣ N) (hp : p < N / 4 ^ (k + 1)) :
    getRow (transposeVector (getPowerSeries g N) 4 (4 ^ k)) p
      = [1 * (g ^ 4 ^ k) ^ p, g ^ (N / 4) * (g ^ 4 ^ k) ^ p,
         g ^ (N / 2) * (g ^ 4 ^ k) ^ p, g ^ (N * 3 / 4) * (g ^ 4 ^ k) ^ p] := by
  obtain ⟨M, rfl⟩ := hdvd
  have h4k : (0 : Nat) < 4 ^ k := pow_pos (by norm_num) k
  have h4k1 : (0 : Nat) < 4 ^ (k + 1) := pow_pos (by norm_num) (k + 1)
  rw [Nat.mul_div_cancel_left M h4k1] at hp
  rw [pow_succ]
  have hlen : (getPowerSeries g (4 ^ k * 4 * M)).length = 4 ^ k * 4 * M := by
    simp [getPowerSeries]
  have hrc : (getPowerSeries g (4 ^ k * 4 * M)).length / 4 ^ k / 4 = M := by
    rw [hlen, Nat.div_div_eq_div_mul]
    exact Nat.mul_div_cancel_left M (by positivity)
  have hrow := transposeVector_row (getPowerSeries g (4 ^ k * 4 * M)) 4 (4 ^ k) p
    (by rw [hrc]; exact hp)
  rw [hrow, hrc]
  have hidx : ∀ j, j < 4 → (p + j * M) * 4 ^ k < 4 ^ k * 4 * M := by
    intro j hj
    have hjM : j * M ≤ 3 * M := Nat.mul_le_mul_right M (by omega)
    have h1 : p + j * M < 4 * M := by omega
    calc (p + j * M) * 4 ^ k < (4 * M) * 4 ^ k := mul_lt_mul_of_pos_right h1 h4k
      _ = 4 ^ k * 4 * M := by ring
  have hN4 : 4 ^ k * 4 * M / 4 = 4 ^ k * M := by
    rw [show 4 ^ k * 4 * M = 4 * (4 ^ k * M) from by ring]
    exact Nat.mul_div_cancel_left _ (by norm_num)
  have hN2 : 4 ^ k * 4 * M / 2 = 2 * (4 ^ k * M) := by
    rw [show 4 ^ k * 4 * M = 2 * (2 * (4 ^ k * M)) from by ring]
    exact Nat.mul_div_cancel_left _ (by norm_num)
  have hN34 : 4 ^ k * 4 * M * 3 / 4 = 3 * (4 ^ k * M) := by
    rw [show 4 ^ k * 4 * M * 3 = 4 * (3 * (4 ^ k * M)) from by ring]
    exact Nat.mul_div_cancel_left _ (by norm_num)
  rw [show List.range 4 = [0, 1, 2, 3] from rfl]
  simp only [List.map_cons, List.map_nil]
  rw [getE_getPowerSeries g _ _ (hidx 0 (by norm_num)),
    getE_getPowerSeries g _ _ (hidx 1 (by norm_num)),
    getE_getPowerSeries g _ _ (hidx 2 (by norm_num)),
    getE_getPowerSeries g _ _ (hidx 3 (by norm_num)),
    hN4, hN2, hN34]
  refine List.cons_eq_cons.mpr ⟨?_, List.cons_eq_cons.mpr ⟨?_,
    List.cons_eq_cons.mpr ⟨?_, List.cons_eq_cons.mpr ⟨?_, rfl⟩⟩⟩⟩
  · rw [one_mul, ← pow_mul]
    congr 1
    ring
  · rw [← pow_mul, ← pow_add]
    congr 1
    ring
  · rw [← pow_mul, ← pow_add]
    congr 1
    ring
  · rw [← pow_mul, ← pow_add]
    congr 1
    ring

theorem friEvalCheck_complete (quartic : List F) (rou sx : F) (positions : List Nat)
    (PV xs : List (List F)) (depth : Nat)
    (hp : ∀ p ∈ positions, p < min xs.length PV.length)
    (hx : ∀ p ∈ positions, getRow xs p
        = [getE quartic 0 * rou ^ p, getE quartic 1 * rou ^ p,
           getE quartic 2 * rou ^ p, getE quartic 3 * rou ^ p]) :
    friEvalCheck quartic rou sx positions
      (positions.map (fun p => getRow PV p))
      (positions.map (fun p =>
        getE (evalQuarticBatch (interpolateQuarticBatch xs PV) sx) p)) depth
      = .ok () := by
  rw [friEvalCheck_ok_iff]
  intro i hi
  have hipos : i < positions.length := lt_of_lt_of_le hi (min_le_left _ _)
  have hmem : getP positions i ∈ positions := by
    rw [getP_eq_get _ _ hipos]
    exact List.get_mem _ _ _
  rw [getRow_map_get (fun p => getRow PV p) positions i hipos]
  rw [getE_map_getP (fun p =>
    getE (evalQuarticBatch (interpolateQuarticBatch xs PV) sx) p) positions i hipos]
  rw [show evalQuarticBatch (interpolateQuarticBatch xs PV) sx
    = (interpolateQuarticBatch xs PV).map (fun q => polyEval q sx) from rfl]
  rw [getE_map_poly (fun q => polyEval q sx) _ (getP positions i)
    (by rw [show interpolateQuarticBatch xs PV = List.zipWith interpolate xs PV from rfl,
      List.length_zipWith]; exact hp _ hmem)]
  rw [show interpolateQuarticBatch xs PV = List.zipWith interpolate xs PV from rfl]
  rw [getRow_zipWith interpolate xs PV (getP positions i) (hp _ hmem)]
  rw [hx _ hmem]

/-- C2: (a) the per-layer check of the verifier interpolates the 4 revealed
polynomial values against the x-coordinates `quartic[j] * ω^p`, evaluates the
resulting cubic at `specialX`, and succeeds at the layer iff the result
equals the revealed column value at every queried index (so it throws iff
some evaluation differs); (b) at depth `k` over the evaluation domain of a
power-of-4-divisible size `N`, the verifier's x-coordinates
`ζ^j · ω^p = g^(jN/4) · (g^(4^k))^p` coincide with the prover's
interpolation nodes, the transposed domain row at `p`; (c) for a column
honestly produced from the same inputs — revealed rows `PV[p]` and column
values `evalQuarticBatch(interpolateQuarticBatch(xs, PV), specialX)[p]` —
the check passes at every depth and every queried position. -/
theorem claim_C2 :
    (∀ (quartic : List F) (rou sx : F) (positions : List Nat)
        (pv : List (List F)) (cv : List F) (depth : Nat),
        friEvalCheck quartic rou sx positions pv cv depth = .ok ()
        ↔ ∀ i, i < min positions.length pv.length →
            polyEval (interpolate
              [getE quartic 0 * rou ^ getP positions i,
               getE quartic 1 * rou ^ getP positions i,
               getE quartic 2 * rou ^ getP positions i,
               getE quartic 3 * rou ^ getP positions i]
              (getRow pv i)) sx
            = getE cv i)
    ∧ (∀ (g : F) (N k p : Nat), 4 ^ (k + 1) ∣ N → p < N / 4 ^ (k + 1) →
        getRow (transposeVector (getPowerSeries g N) 4 (4 ^ k)) p
          = [1 * (g ^ 4 ^ k) ^ p, g ^ (N / 4) * (g ^ 4 ^ k) ^ p,
             g ^ (N / 2) * (g ^ 4 ^ k) ^ p, g ^ (N * 3 / 4) * (g ^ 4 ^ k) ^ p])
    ∧ (∀ (quartic : List F) (rou sx : F) (positions : List Nat)
        (PV xs : List (List F)) (depth : Nat),
        (∀ p ∈ positions, p < min xs.length PV.length) →
        (∀ p ∈ positions, getRow xs p
            = [getE quartic 0 * rou ^ p, getE quartic 1 * rou ^ p,
               getE quartic 2 * rou ^ p, getE quartic 3 * rou ^ p]) →
        friEvalCheck quartic rou sx positions
          (positions.map (fun p => getRow PV p))
          (positions.map (fun p =>
            getE (evalQuarticBatch (interpolateQuarticBatch xs PV) sx) p)) depth
          = .ok ()) :=
  ⟨friEvalCheck_ok_iff, transposeVector_powerSeries_row,
    fun quartic rou sx positions PV xs depth hp hx =>
      friEvalCheck_complete quartic rou sx positions PV xs depth hp hx⟩

theorem claim_C2_witness :
    friEvalCheck [1, 2, 4, 3] (1 : ZMod 5) 0 [0]
      ([0].map (fun p => getRow [[1, 1, 1, 1]] p))
      ([0].map (fun p =>
        getE (evalQuarticBatch (interpolateQuarticBatch [[1, 2, 4, 3]] [[1, 1, 1, 1]]) 0) p))
      0 = .ok () :=
  (@claim_C2 (ZMod 5) _ _).2.2 [1, 2, 4, 3] 1 0 [0] [[1, 1, 1, 1]] [[1, 2, 4, 3]] 0
    (by decide) (by decide)

end GenStark
